import Mathlib

/-!
# RHT03 / DHT22 / AM2303 handler (`rht03.c`)

A shallow embedding of the C function `rht03(int port, int *hum, int *tmp)`.

* The function-local statics `last`, `h`, `t` are an explicit `Statics` value that is
  passed in and returned.
* Everything the call obtains from outside is a `World`: the value stored by
  `clock_gettime`, whether `regs_map` succeeds, the level returned by the k-th
  `prt_rd` of the call, and the indeterminate initial content of `data[5]`.
* Every call into the register library, `usleep`, `munmap` and every `fprintf` is
  recorded, in order, in a trace of `Event`s.
* The busy-wait loops take a fuel argument (an upper bound on the iterations of one
  loop); `none` means that the fuel ran out before the loop left. More fuel never
  changes a result (`rht03_mono`), so a call that yields `none` for every fuel is a
  call that does not return.
* `handshake` and `sample` restate the protocol code in two parts; `acquire_eq_sample`
  proves that they compose to `acquire`, the literal transcription.
-/

namespace RHT03

/-- The iteration ceiling of the bounded waits: `#define TIMEOUT 1000`. -/
def TIMEOUT : Nat := 1000

/-- The two fields of a `struct timespec`. -/
structure Timespec where
  tv_sec : Int
  tv_nsec : Int
  deriving DecidableEq, Repr

/-- The statics of `rht03`: `static struct timespec last; static int h, t;`. -/
structure Statics where
  last : Timespec
  h : Int
  t : Int
  deriving DecidableEq, Repr

/-- The statics as C zero-initialises them, before the first call of a process. -/
def Statics.zero : Statics := { last := { tv_sec := 0, tv_nsec := 0 }, h := 0, t := 0 }

/-- Direction argument of `fnc_wr`. -/
inductive Fnc where
  | FNC_IN
  | FNC_OUT
  deriving DecidableEq, Repr

/-- The diagnostics written to stderr, one constructor per `fprintf` of `rht03`. -/
inductive Msg where
  | mapFail
  | busBusy
  | responseTimeout
  | baseTimeTooLong
  | signalNotDetect
  | bitTimeout (d b : Nat)
  | checksumUnmuch
  deriving DecidableEq, Repr

/-- The externally visible operations of one call, in program order. -/
inductive Event where
  | regs_map
  | fnc_wr (port : Int) (f : Fnc)
  | prt_rd (port : Int) (level : Bool)
  | prt_wr (port : Int) (v : Int)
  | usleep (us : Nat)
  | fprintf (msg : Msg)
  | munmap
  deriving DecidableEq, Repr

/-- What one call of `rht03` receives from its environment. -/
structure World where
  /-- The value `clock_gettime(CLOCK_MONOTONIC, &now)` stores. -/
  now : Timespec
  /-- Whether `regs_map(OFF_PRT)` returns something other than `MAP_FAILED`. -/
  mapOk : Bool
  /-- Whether the k-th `prt_rd` of the call (counted from 0) returns nonzero. -/
  line : Nat → Bool
  /-- The content of the uninitialised `uint8_t data[5]` at entry. -/
  garbage : List Nat

/-- The locals of a call that the protocol code changes. -/
structure Mach where
  /-- Number of `prt_rd` calls made so far. -/
  k : Nat
  /-- Events so far, oldest first. -/
  tr : List Event
  /-- The buffer `uint8_t data[5]`. -/
  data : List Nat
  deriving DecidableEq, Repr

/-- What the caller observes of one call: the return value, the contents of `*hum`
and `*tmp` after it, the statics after it, and the trace. -/
structure Result where
  ret : Int
  hum : Int
  tmp : Int
  st : Statics
  tr : List Event
  deriving DecidableEq, Repr

/-- Lines 27-28: `usec = (now.tv_sec - last.tv_sec) * 1000000
+ (now.tv_nsec - last.tv_nsec) / 1000`, stored in a `uint32_t`. C division truncates
toward zero (`Int.tdiv`); the store reduces modulo 2^32. -/
def interval (now last : Timespec) : Int :=
  ((now.tv_sec - last.tv_sec) * 1000000 + (now.tv_nsec - last.tv_nsec).tdiv 1000)
    % 4294967296

/-- Append one event to the trace. -/
def emit (e : Event) (m : Mach) : Mach := { m with tr := m.tr ++ [e] }

/-- One `prt_rd(regs, port)`: the next level of the world, recorded in the trace. -/
def prt_rd (w : World) (port : Int) (m : Mach) : Bool × Mach :=
  (w.line m.k, { m with k := m.k + 1, tr := m.tr ++ [Event.prt_rd port (w.line m.k)] })

/-- How a bounded wait ends. -/
inductive Wait where
  /-- The loop condition became false while the counter was `i`. -/
  | done (i : Nat) (m : Mach)
  /-- The body found `i > TIMEOUT`. -/
  | timeout (m : Mach)
  deriving DecidableEq, Repr

/-- The bounded wait `for(i = ..; prt_rd(regs, port) <is lvl>; i++){ if(i > TIMEOUT) fail }`,
started with counter `i`. With `lvl = true` the condition is `prt_rd(regs, port)`,
with `lvl = false` it is `prt_rd(regs, port) == 0`. -/
def forWait (w : World) (port : Int) (lvl : Bool) : Nat → Nat → Mach → Option Wait
  | 0, _, _ => none
  | fuel + 1, i, m =>
    let r := prt_rd w port m
    if r.1 = lvl then
      if i > TIMEOUT then some (Wait.timeout r.2)
      else forWait w port lvl fuel (i + 1) r.2
    else some (Wait.done i r.2)

/-- Line 90: `while(prt_rd(regs, port) == 0);`. -/
def whileLow (w : World) (port : Int) : Nat → Mach → Option Mach
  | 0, _ => none
  | fuel + 1, m =>
    let r := prt_rd w port m
    if r.1 = false then whileLow w port fuel r.2 else some r.2

/-- Where control is after a piece of the protocol code. -/
inductive Flow where
  /-- The function has executed `return -1`. -/
  | ret (m : Mach)
  /-- Control goes on behind the piece. -/
  | go (m : Mach)
  deriving DecidableEq, Repr

/-- The common error exit: `fprintf(stderr, ..); munmap(..); return -1;`. -/
def abort (msg : Msg) (m : Mach) : Flow :=
  Flow.ret (emit Event.munmap (emit (Event.fprintf msg) m))

/-- Lines 89-101: `for(b = ..; b < 8; b++){ .. }` for byte `d` with threshold `th`;
the first numeric argument is the number of iterations still to run (8 - b). -/
def bitLoop (fuel : Nat) (w : World) (port : Int) (th d : Nat) :
    Nat → Nat → Mach → Option Flow
  | 0, _, m => some (Flow.go m)
  | cnt + 1, b, m =>
    match whileLow w port fuel m with
    | none => none
    | some m1 =>
      match forWait w port true fuel 0 m1 with
      | none => none
      | some (Wait.timeout m2) => some (abort (Msg.bitTimeout d b) m2)
      | some (Wait.done i m2) =>
        -- data[d] <<= 1;  (uint8_t store)
        let m3 : Mach := { m2 with data := m2.data.set d ((m2.data.getD d 0 <<< 1) % 256) }
        -- if(i > th) data[d] |= 1;
        let m4 : Mach :=
          if i > th then { m3 with data := m3.data.set d (m3.data.getD d 0 ||| 1) } else m3
        bitLoop fuel w port th d cnt (b + 1) m4

/-- Lines 88-102: `for(d = ..; d < 5; d++){ .. }`; the first numeric argument is the
number of iterations still to run (5 - d). -/
def byteLoop (fuel : Nat) (w : World) (port : Int) (th : Nat) :
    Nat → Nat → Mach → Option Flow
  | 0, _, m => some (Flow.go m)
  | cnt + 1, d, m =>
    match bitLoop fuel w port th d 8 0 m with
    | none => none
    | some (Flow.ret m1) => some (Flow.ret m1)
    | some (Flow.go m1) => byteLoop fuel w port th cnt (d + 1) m1

/-- Lines 38-103 on the path where `regs_map` succeeds (the trace starts with that
call): bus-free check, start request, the three bounded waits, the sampling loops and
the final `munmap`. -/
def acquire (fuel : Nat) (w : World) (port : Int) : Option Flow :=
  let m0 : Mach := { k := 0, tr := [Event.regs_map], data := w.garbage }
  -- check bus free
  let r := prt_rd w port (emit (Event.fnc_wr port Fnc.FNC_IN) m0)
  if r.1 = false then some (abort Msg.busBusy r.2)
  else
    -- start request
    let m1 := emit (Event.fnc_wr port Fnc.FNC_IN)
      (emit (Event.usleep 1000)
        (emit (Event.prt_wr port 0)
          (emit (Event.fnc_wr port Fnc.FNC_OUT) r.2)))
    -- wait for H->L
    match forWait w port true fuel 0 m1 with
    | none => none
    | some (Wait.timeout m2) => some (abort Msg.responseTimeout m2)
    | some (Wait.done _ m2) =>
      -- count for L->H
      match forWait w port false fuel 0 m2 with
      | none => none
      | some (Wait.timeout m3) => some (abort Msg.baseTimeTooLong m3)
      | some (Wait.done i m3) =>
        let th := i * 50 / 80
        -- wait for H->L
        match forWait w port true fuel 0 m3 with
        | none => none
        | some (Wait.timeout m4) => some (abort Msg.signalNotDetect m4)
        | some (Wait.done _ m4) =>
          -- read data
          match byteLoop fuel w port th 5 0 m4 with
          | none => none
          | some (Flow.ret m5) => some (Flow.ret m5)
          | some (Flow.go m5) => some (Flow.go (emit Event.munmap m5))

/-- Lines 105-117: the checksum test and the decoding of `data` into `h`, `t`,
`*hum`, `*tmp`. `s` holds the statics and `hum`, `tmp` the contents of the variables
of the caller when the stage is entered, `tr` is the trace so far. -/
def validate (data : List Nat) (s : Statics) (hum tmp : Int) (tr : List Event) : Result :=
  let d : Nat → Nat := fun j => data.getD j 0
  if d 4 ≠ (d 0 + d 1 + d 2 + d 3) &&& 0xff then
    { ret := -1, hum := hum, tmp := tmp, st := s,
      tr := tr ++ [Event.fprintf Msg.checksumUnmuch] }
  else
    let h : Int := (d 0 : Int) * 256 + (d 1 : Int)
    let t : Int := ((d 2 &&& 0x7f : Nat) : Int) * 256 + (d 3 : Int)
    let t : Int := if d 2 &&& 0x80 ≠ 0 then t * -1 else t
    { ret := 0, hum := h, tmp := t, st := { s with h := h, t := t }, tr := tr }

/-- Lines 34-117, the part of `rht03` behind the interval check: record the time of
this access in `last`, get the register map, run the protocol and validate the frame. -/
def attempt (fuel : Nat) (w : World) (port : Int) (s : Statics) (hum tmp : Int) :
    Option Result :=
  let s1 : Statics := { s with last := w.now }
  -- get register map
  if w.mapOk = false then
    some { ret := -1, hum := hum, tmp := tmp, st := s1,
           tr := [Event.regs_map, Event.fprintf Msg.mapFail] }
  else
    match acquire fuel w port with
    | none => none
    | some (Flow.ret m) => some { ret := -1, hum := hum, tmp := tmp, st := s1, tr := m.tr }
    | some (Flow.go m) => some (validate m.data s1 hum tmp m.tr)

/-- The function `rht03(port, hum, tmp)`: `s` holds the statics at entry and `hum`,
`tmp` the contents of `*hum`, `*tmp` at entry. -/
def rht03 (fuel : Nat) (w : World) (port : Int) (s : Statics) (hum tmp : Int) :
    Option Result :=
  -- check interval
  if interval w.now s.last < 2000000 then
    some { ret := 0, hum := s.h, tmp := s.t, st := s, tr := [] }
  else attempt fuel w port s hum tmp

/-- The monotonic time, in nanoseconds, that lies between two clock values: the
elapsed time of the specification, which `interval` approximates in microseconds. -/
def elapsedNs (now last : Timespec) : Int :=
  (now.tv_sec - last.tv_sec) * 1000000000 + (now.tv_nsec - last.tv_nsec)

/-- The machine state a bounded wait ends in. -/
def Wait.mach : Wait → Mach
  | Wait.done _ m => m
  | Wait.timeout m => m

/-- The machine state a piece of protocol code ends in. -/
def Flow.mach : Flow → Mach
  | Flow.ret m => m
  | Flow.go m => m

/-! ## The protocol code in parts

The handshake and the two sampling loops as functions of their own, proved below to
compose to `acquire`, and the notions the statements about traces and frames use. -/

/-- Lines 98-100, the body of the bit loop behind its two waits: `data[d] <<= 1;`
and, when the counted width `i` exceeds the threshold, `data[d] |= 1;`. -/
def storeBit (th d i : Nat) (m : Mach) : Mach :=
  let m3 : Mach := { m with data := m.data.set d ((m.data.getD d 0 <<< 1) % 256) }
  if i > th then { m3 with data := m3.data.set d (m3.data.getD d 0 ||| 1) } else m3

/-- The machine state behind the start request (lines 38-56) of a call whose first
read found the line high. -/
def startMach (w : World) (port : Int) : Mach :=
  emit (Event.fnc_wr port Fnc.FNC_IN)
    (emit (Event.usleep 1000)
      (emit (Event.prt_wr port 0)
        (emit (Event.fnc_wr port Fnc.FNC_OUT)
          (prt_rd w port (emit (Event.fnc_wr port Fnc.FNC_IN)
            { k := 0, tr := [Event.regs_map], data := w.garbage })).2)))

/-- How the part of the protocol before the sampling loops ends. -/
inductive Shake where
  /-- The function has executed `return -1`. -/
  | ret (m : Mach)
  /-- The three waits are over; the calibration wait counted `n`. -/
  | ready (n : Nat) (m : Mach)
  deriving DecidableEq, Repr

/-- Lines 38-85 on the path where `regs_map` succeeds, as a function of their own: the
code of `acquire` up to the sampling loops. It hands on the count `n` of the
calibration wait, from which line 76 computes the threshold `n * 50 / 80`. -/
def handshake (fuel : Nat) (w : World) (port : Int) : Option Shake :=
  let m0 : Mach := { k := 0, tr := [Event.regs_map], data := w.garbage }
  let r := prt_rd w port (emit (Event.fnc_wr port Fnc.FNC_IN) m0)
  if r.1 = false then some (Shake.ret (abort Msg.busBusy r.2).mach)
  else
    match forWait w port true fuel 0 (startMach w port) with
    | none => none
    | some (Wait.timeout m2) => some (Shake.ret (abort Msg.responseTimeout m2).mach)
    | some (Wait.done _ m2) =>
      match forWait w port false fuel 0 m2 with
      | none => none
      | some (Wait.timeout m3) => some (Shake.ret (abort Msg.baseTimeTooLong m3).mach)
      | some (Wait.done i m3) =>
        match forWait w port true fuel 0 m3 with
        | none => none
        | some (Wait.timeout m4) => some (Shake.ret (abort Msg.signalNotDetect m4).mach)
        | some (Wait.done _ m4) => some (Shake.ready i m4)

/-- Lines 88-102 as one loop over the bit number `j` (bit `j % 8` of byte `j / 8`),
which also lists the widths counted: the first numeric argument is the number of
iterations still to run, the result pairs the control flow with the counts `i` of the
iterations that were completed. -/
def sample (fuel : Nat) (w : World) (port : Int) (th : Nat) :
    Nat → Nat → Mach → Option (Flow × List Nat)
  | 0, _, m => some (Flow.go m, [])
  | n + 1, j, m =>
    match whileLow w port fuel m with
    | none => none
    | some m1 =>
      match forWait w port true fuel 0 m1 with
      | none => none
      | some (Wait.timeout m2) => some (abort (Msg.bitTimeout (j / 8) (j % 8)) m2, [])
      | some (Wait.done i m2) =>
        match sample fuel w port th n (j + 1) (storeBit th (j / 8) i m2) with
        | none => none
        | some (f, cs) => some (f, i :: cs)

/-- The trace of a call on `port` that has passed the start request and has made `k`
reads so far (`k` at least 1). -/
def traceAt (w : World) (port : Int) (k : Nat) : List Event :=
  [Event.regs_map, Event.fnc_wr port Fnc.FNC_IN, Event.prt_rd port (w.line 0),
   Event.fnc_wr port Fnc.FNC_OUT, Event.prt_wr port 0, Event.usleep 1000,
   Event.fnc_wr port Fnc.FNC_IN]
    ++ (List.range' 1 (k - 1)).map (fun t => Event.prt_rd port (w.line t))

/-- Whether an event configures or drives the line: `fnc_wr` or `prt_wr`. -/
def Event.drives : Event → Bool
  | Event.fnc_wr _ _ => true
  | Event.prt_wr _ _ => true
  | _ => false

/-- The j-th decoded bit of a run with threshold `th` whose pulse widths were `cs`. -/
def bitAt (th : Nat) (cs : List Nat) (j : Nat) : Nat := if cs.getD j 0 > th then 1 else 0

/-- The byte the specification assigns to position `d`: the sum over k = 0..7 of
bit(8d+k) * 2^(7-k). -/
def packed (th : Nat) (cs : List Nat) (d : Nat) : Nat :=
  ((List.range 8).map (fun k => bitAt th cs (8 * d + k) * 2 ^ (7 - k))).sum

/-- The value lines 98-100 build in one byte from the start value `x` when the widths
`cs` are counted one after the other. -/
def accum (th : Nat) (cs : List Nat) (x : Nat) : Nat :=
  cs.foldl (fun v c => (2 * v + (if c > th then 1 else 0)) % 256) x

/-- The discipline of the line, checked along a trace: `dir` is the direction last
configured (none before the first `fnc_wr`), `n` the number of levels written so far.
The check fails (`none`) when a level is written while the direction is not OUTPUT or
when the level written is not 0 (LOW). -/
def driveCheck : Option Fnc → Nat → List Event → Option (Option Fnc × Nat)
  | dir, n, [] => some (dir, n)
  | _, n, Event.fnc_wr _ f :: es => driveCheck (some f) n es
  | dir, n, Event.prt_wr _ v :: es =>
    if dir = some Fnc.FNC_OUT ∧ v = 0 then driveCheck dir (n + 1) es else none
  | dir, n, _ :: es => driveCheck dir n es

/-! ## Concrete sensors

Worlds in which the line behaves like a sensor that sends a given frame; they are the
inputs at which the statements below are evaluated. -/

/-- The reads of one data bit: two reads of the low phase, the read that ends
`while(prt_rd(regs, port) == 0)`, then `c` reads of the high pulse and the low read
that ends the count. -/
def pulse (c : Nat) : List Bool := [false, false, true] ++ List.replicate c true ++ [false]

/-- The bits of a byte, most significant first. -/
def bitsOfByte (x : Nat) : List Bool := (List.range 8).map (fun j => x.testBit (7 - j))

/-- The levels a call reads when the sensor answers with `bytes`: idle high, response
low, a reference low phase of 8 reads (threshold 8 * 50 / 80 = 5), two reads of the
reference high phase, then a pulse of 2 reads for a 0 bit and of 7 reads for a 1 bit. -/
def frameReads (bytes : List Nat) : List Bool :=
  [true, false] ++ List.replicate 8 false ++ [true, true, false]
    ++ (bytes.flatMap bitsOfByte).flatMap (fun b => pulse (if b then 7 else 2))

/-- A world with a working register map whose line returns `reads` and then stays low. -/
def worldOf (now : Timespec) (reads : List Bool) : World :=
  { now := now, mapOk := true, line := fun k => reads.getD k false,
    garbage := [0xde, 0xad, 0xbe, 0xef, 0x55] }

/-- The trace of a call on port `port` that reads exactly `reads` and completes the
sampling loop. -/
def frameTrace (port : Int) (reads : List Bool) : List Event :=
  [Event.regs_map, Event.fnc_wr port Fnc.FNC_IN, Event.prt_rd port (reads.getD 0 false),
   Event.fnc_wr port Fnc.FNC_OUT, Event.prt_wr port 0, Event.usleep 1000,
   Event.fnc_wr port Fnc.FNC_IN]
    ++ (reads.drop 1).map (Event.prt_rd port) ++ [Event.munmap]

/-- The trace of a call on port `port` that finds the bus busy. -/
def busyTrace (port : Int) : List Event :=
  [Event.regs_map, Event.fnc_wr port Fnc.FNC_IN, Event.prt_rd port false,
   Event.fprintf Msg.busBusy, Event.munmap]

/-- A frame with a correct checksum: 65.2 % and +26.0 degrees. -/
def goodFrame : List Nat := [0x02, 0x8C, 0x01, 0x04, 0x93]

/-- A frame with a correct checksum and the sign bit set: 40.0 % and -10.1 degrees. -/
def coldFrame : List Nat := [0x01, 0x90, 0x80, 0x65, 0x76]

/-- The frame of the concrete scenario of the specification. -/
def scenarioFrame : List Nat := [0x02, 0x8C, 0x01, 0x04, 0x91]

/-- A sensor sending `goodFrame`, read at 10.000000999 s of monotonic time. -/
def goodWorld : World := worldOf { tv_sec := 10, tv_nsec := 999 } (frameReads goodFrame)

/-- A sensor sending `coldFrame`, read at 10.000000999 s. -/
def coldWorld : World := worldOf { tv_sec := 10, tv_nsec := 999 } (frameReads coldFrame)

/-- A sensor sending `scenarioFrame`, read at 10.000000999 s. -/
def scenarioWorld : World :=
  worldOf { tv_sec := 10, tv_nsec := 999 } (frameReads scenarioFrame)

/-- A line that is held low (bus busy) at the given time. -/
def busyWorld (now : Timespec) : World := worldOf now []

/-- What the first call of a process returns against `scenarioWorld` when the variables
of the caller hold 7 and 9: failure, with the checksum diagnostic after the full trace. -/
def scenarioResult : Result :=
  { ret := -1, hum := 7, tmp := 9,
    st := { last := { tv_sec := 10, tv_nsec := 999 }, h := 0, t := 0 },
    tr := frameTrace 24 (frameReads scenarioFrame) ++ [Event.fprintf Msg.checksumUnmuch] }

/-- What the first call of a process returns against `goodWorld`: the decoded reading,
stored and written to the outputs, after the full trace. -/
def goodResult : Result :=
  { ret := 0, hum := 652, tmp := 260,
    st := { last := { tv_sec := 10, tv_nsec := 999 }, h := 652, t := 260 },
    tr := frameTrace 24 (frameReads goodFrame) }

/-- What a call at 13 s against a busy bus returns when the statics hold the reading
65.2 %, 26.0 degrees and the variables of the caller hold 7 and 9. -/
def busyResult : Result :=
  { ret := -1, hum := 7, tmp := 9,
    st := { last := { tv_sec := 13, tv_nsec := 0 }, h := 652, t := 260 },
    tr := busyTrace 24 }

/-- The count a completed handshake hands on. -/
def Shake.count : Shake → Option Nat
  | Shake.ready n _ => some n
  | Shake.ret _ => none

/-- The reads of a handshake whose reference low phase lasts `n` reads: idle high,
response low, `n` low reads, two reads of the reference high phase, low. -/
def handshakeReads (n : Nat) : List Bool :=
  [true, false] ++ List.replicate n false ++ [true, true, false]

/-- The machine of a call on `port` behind the start request that has made `k` reads
and holds `data` in its buffer. -/
def machAt (w : World) (port : Int) (k : Nat) (data : List Nat) : Mach :=
  { k := k, tr := traceAt w port k, data := data }

/-- A sensor that answers the handshake (threshold 5) and sends one pulse of `c` reads,
after which the line stays low. -/
def pulseWorld (c : Nat) : World :=
  worldOf { tv_sec := 10, tv_nsec := 999 } (handshakeReads 8 ++ pulse c)

/-- A sensor that answers the handshake and then keeps the line low. -/
def hungWorld : World := worldOf { tv_sec := 10, tv_nsec := 999 } (handshakeReads 8)

/-- A line that is high at every read. -/
def highWorld : World :=
  { now := { tv_sec := 10, tv_nsec := 999 }, mapOk := true, line := fun _ => true,
    garbage := [0xde, 0xad, 0xbe, 0xef, 0x55] }

/-- The sensor of `goodWorld` on a line that the pull-up holds high after the frame. -/
def pullupWorld : World :=
  { now := { tv_sec := 10, tv_nsec := 999 }, mapOk := true,
    line := fun k => (frameReads goodFrame).getD k true,
    garbage := [0xde, 0xad, 0xbe, 0xef, 0x55] }

/-- A sensor whose reference low phase is seen by 1001 reads of the calibration wait
(reads 2 to 1002; read 1 ends the response wait), followed by two high reads, a low
read and 40 pulses of 2 reads (all bits 0): the frame 00 00 00 00 00. -/
def slowWorld : World :=
  { now := { tv_sec := 10, tv_nsec := 999 }, mapOk := true,
    line := fun k => if k ≤ 1005 then decide (k = 0 ∨ k = 1003 ∨ k = 1004)
      else decide (2 ≤ (k - 1006) % 6 ∧ (k - 1006) % 6 ≤ 4),
    garbage := [0xde, 0xad, 0xbe, 0xef, 0x55] }

/-- The widths counted in the run against `goodWorld`: 7 for a 1 bit, 2 for a 0 bit. -/
def goodCounts : List Nat :=
  (goodFrame.flatMap bitsOfByte).map (fun b => if b then 7 else 2)

/-! ## Auxiliary facts -/

set_option maxRecDepth 100000

/-- Masking with `0xff` is reduction modulo 256. -/
theorem and_ff_eq_mod (x : Nat) : x &&& 0xff = x % 256 :=
  Nat.and_pow_two_sub_one_eq_mod x 8

/-- The test `data[2] & 0x80` is the test of bit 7. -/
theorem and_80_ne_zero_iff (x : Nat) : x &&& 0x80 ≠ 0 ↔ x.testBit 7 = true := by
  have h := Nat.and_two_pow x 7
  norm_num at h
  rw [h]
  cases x.testBit 7 <;> simp

/-- The validation stage on a frame whose checksum byte matches. -/
theorem validate_of_sum (b0 b1 b2 b3 b4 : Nat) (s : Statics) (hum tmp : Int)
    (tr : List Event) (hsum : b4 = (b0 + b1 + b2 + b3) % 256) :
    validate [b0, b1, b2, b3, b4] s hum tmp tr =
      { ret := 0, hum := (b0 : Int) * 256 + (b1 : Int),
        tmp := if b2.testBit 7 = true
          then -(((b2 &&& 0x7f : Nat) : Int) * 256 + (b3 : Int))
          else ((b2 &&& 0x7f : Nat) : Int) * 256 + (b3 : Int),
        st := { last := s.last, h := (b0 : Int) * 256 + (b1 : Int),
                t := if b2.testBit 7 = true
                  then -(((b2 &&& 0x7f : Nat) : Int) * 256 + (b3 : Int))
                  else ((b2 &&& 0x7f : Nat) : Int) * 256 + (b3 : Int) },
        tr := tr } := by
  have h80 := and_80_ne_zero_iff b2
  have hff := and_ff_eq_mod (b0 + b1 + b2 + b3)
  simp only [validate, List.getD_cons_zero, List.getD_cons_succ, hff]
  rw [if_neg (by simpa using hsum)]
  by_cases hb : b2.testBit 7 = true
  · have h1 : b2 &&& 0x80 ≠ 0 := h80.mpr hb
    simp [hb, h1]
  · have h1 : ¬ (b2 &&& 0x80 ≠ 0) := fun h => hb (h80.mp h)
    simp [hb, h1]

/-- The validation stage on a frame whose checksum byte does not match. -/
theorem validate_of_mismatch (b0 b1 b2 b3 b4 : Nat) (s : Statics) (hum tmp : Int)
    (tr : List Event) (hsum : b4 ≠ (b0 + b1 + b2 + b3) % 256) :
    validate [b0, b1, b2, b3, b4] s hum tmp tr =
      { ret := -1, hum := hum, tmp := tmp, st := s,
        tr := tr ++ [Event.fprintf Msg.checksumUnmuch] } := by
  have hff := and_ff_eq_mod (b0 + b1 + b2 + b3)
  simp only [validate, List.getD_cons_zero, List.getD_cons_succ, hff]
  rw [if_pos hsum]

/-- A call that is not answered from the cache, gets the register map and completes
the sampling loop returns what the validation stage makes of the sampled frame. -/
theorem rht03_of_frame (fuel : Nat) (w : World) (port : Int) (s : Statics) (hum tmp : Int)
    (m : Mach) (hint : ¬ interval w.now s.last < 2000000) (hmap : w.mapOk = true)
    (hacq : acquire fuel w port = some (Flow.go m)) :
    rht03 fuel w port s hum tmp =
      some (validate m.data { s with last := w.now } hum tmp m.tr) := by
  simp [rht03, attempt, hint, hmap, hacq]

/-- The protocol run against the sensor that sends `goodFrame`. -/
theorem acquire_goodWorld :
    acquire 16 goodWorld 24 = some (Flow.go
      { k := (frameReads goodFrame).length, tr := frameTrace 24 (frameReads goodFrame),
        data := goodFrame }) := by
  decide

/-- The protocol run against the sensor that sends `coldFrame`. -/
theorem acquire_coldWorld :
    acquire 16 coldWorld 24 = some (Flow.go
      { k := (frameReads coldFrame).length, tr := frameTrace 24 (frameReads coldFrame),
        data := coldFrame }) := by
  decide

/-- The protocol run against the sensor that sends `scenarioFrame`. -/
theorem acquire_scenarioWorld :
    acquire 16 scenarioWorld 24 = some (Flow.go
      { k := (frameReads scenarioFrame).length, tr := frameTrace 24 (frameReads scenarioFrame),
        data := scenarioFrame }) := by
  decide

/-- The call against the sensor that sends `goodFrame`, as first call of a process. -/
theorem run_goodWorld :
    rht03 16 goodWorld 24 Statics.zero 7 9 = some goodResult := by
  rw [rht03_of_frame 16 goodWorld 24 Statics.zero 7 9 _ (by decide) (by decide)
    acquire_goodWorld]
  decide

/-- The call against the sensor that sends `scenarioFrame`, as first call of a
process. -/
theorem run_scenarioWorld :
    rht03 16 scenarioWorld 24 Statics.zero 7 9 = some scenarioResult := by
  rw [rht03_of_frame 16 scenarioWorld 24 Statics.zero 7 9 _ (by decide) (by decide)
    acquire_scenarioWorld]
  decide

/-- A validation stage that fails has changed neither the outputs nor the statics. -/
theorem validate_fail (data : List Nat) (s : Statics) (hum tmp : Int) (tr : List Event)
    (hret : (validate data s hum tmp tr).ret = -1) :
    (validate data s hum tmp tr).hum = hum ∧ (validate data s hum tmp tr).tmp = tmp ∧
      (validate data s hum tmp tr).st = s := by
  unfold validate at hret ⊢
  simp only at hret ⊢
  split
  · exact ⟨rfl, rfl, rfl⟩
  · rename_i hc
    rw [if_neg hc] at hret
    simp at hret

/-- A failed hardware attempt leaves the outputs and the stored reading alone and has
recorded the time of the call in `last`. -/
theorem attempt_fail (fuel : Nat) (w : World) (port : Int) (s : Statics) (hum tmp : Int)
    (r : Result) (h : attempt fuel w port s hum tmp = some r) (hret : r.ret = -1) :
    r.hum = hum ∧ r.tmp = tmp ∧ r.st = { s with last := w.now } := by
  unfold attempt at h
  simp only at h
  split at h
  · cases h
    exact ⟨rfl, rfl, rfl⟩
  · split at h
    · cases h
    · cases h
      exact ⟨rfl, rfl, rfl⟩
    · cases h
      exact validate_fail _ _ _ _ _ hret

/-- C division by 1000, as used for the nanosecond difference, in terms of floor
division. -/
theorem tdiv_thousand (x : Int) :
    (0 ≤ x → x.tdiv 1000 = x / 1000) ∧ (x < 0 → x.tdiv 1000 = -((-x) / 1000)) := by
  constructor
  · intro hx
    exact Int.tdiv_eq_ediv hx (by decide)
  · intro hx
    have h1 : (-(-x)).tdiv 1000 = -((-x).tdiv 1000) := Int.neg_tdiv (-x) 1000
    rw [neg_neg] at h1
    rw [h1, Int.tdiv_eq_ediv (by omega) (by decide)]

/-- The value of `usec` before the store into the 32-bit variable lies within one
microsecond of the elapsed time. -/
theorem usec_bounds (now last : Timespec) :
    elapsedNs now last ≤
        ((now.tv_sec - last.tv_sec) * 1000000
          + (now.tv_nsec - last.tv_nsec).tdiv 1000) * 1000 + 999 ∧
      ((now.tv_sec - last.tv_sec) * 1000000
          + (now.tv_nsec - last.tv_nsec).tdiv 1000) * 1000 ≤ elapsedNs now last + 999 := by
  unfold elapsedNs
  obtain ⟨hpos, hneg⟩ := tdiv_thousand (now.tv_nsec - last.tv_nsec)
  rcases le_or_lt 0 (now.tv_nsec - last.tv_nsec) with h | h
  · rw [hpos h]
    omega
  · rw [hneg h]
    omega

/-- Up to 2 s - 1 us of elapsed monotonic time the interval test answers from the
cache. -/
theorem interval_lt_of_elapsed (now last : Timespec)
    (h0 : 0 ≤ elapsedNs now last) (h1 : elapsedNs now last + 1000 ≤ 2000000000) :
    interval now last < 2000000 := by
  have hb := usec_bounds now last
  unfold interval
  generalize (now.tv_sec - last.tv_sec) * 1000000
    + (now.tv_nsec - last.tv_nsec).tdiv 1000 = v at hb ⊢
  omega

/-- From 2 s up to 2^32 us - 1 us of elapsed monotonic time the interval test does
not answer from the cache. -/
theorem interval_ge_of_elapsed (now last : Timespec)
    (h0 : 2000000000 ≤ elapsedNs now last)
    (h1 : elapsedNs now last + 1000 ≤ 4294967296000) :
    ¬ interval now last < 2000000 := by
  have hb := usec_bounds now last
  have hs : now.tv_nsec - last.tv_nsec < 0 →
      elapsedNs now last ≤ ((now.tv_sec - last.tv_sec) * 1000000
          + (now.tv_nsec - last.tv_nsec).tdiv 1000) * 1000 := by
    intro h
    unfold elapsedNs
    rw [(tdiv_thousand (now.tv_nsec - last.tv_nsec)).2 h]
    omega
  have hp : 0 ≤ now.tv_nsec - last.tv_nsec →
      ((now.tv_sec - last.tv_sec) * 1000000
          + (now.tv_nsec - last.tv_nsec).tdiv 1000) * 1000 ≤ elapsedNs now last := by
    intro h
    unfold elapsedNs
    rw [(tdiv_thousand (now.tv_nsec - last.tv_nsec)).1 h]
    omega
  unfold interval
  generalize (now.tv_sec - last.tv_sec) * 1000000
    + (now.tv_nsec - last.tv_nsec).tdiv 1000 = v at hb hs hp ⊢
  rcases le_or_lt 0 (now.tv_nsec - last.tv_nsec) with h | h
  · have := hp h
    omega
  · have := hs h
    omega

/-- A read only appends to the trace. -/
theorem prt_rd_extends (w : World) (port : Int) (m : Mach) :
    m.tr <+: (prt_rd w port m).2.tr := by
  simp [prt_rd]

/-- A bounded wait only appends to the trace. -/
theorem forWait_extends (w : World) (port : Int) (lvl : Bool) (fuel : Nat) :
    ∀ (i : Nat) (m : Mach) (r : Wait),
      forWait w port lvl fuel i m = some r → m.tr <+: r.mach.tr := by
  induction fuel with
  | zero =>
    intro i m r h
    simp [forWait] at h
  | succ n ih =>
    intro i m r h
    simp only [forWait] at h
    split at h
    · split at h
      · cases h
        exact prt_rd_extends w port m
      · exact (prt_rd_extends w port m).trans (ih _ _ _ h)
    · cases h
      exact prt_rd_extends w port m

/-- The rising-edge wait only appends to the trace. -/
theorem whileLow_extends (w : World) (port : Int) (fuel : Nat) :
    ∀ (m m1 : Mach), whileLow w port fuel m = some m1 → m.tr <+: m1.tr := by
  induction fuel with
  | zero =>
    intro m m1 h
    simp [whileLow] at h
  | succ n ih =>
    intro m m1 h
    simp only [whileLow] at h
    split at h
    · exact (prt_rd_extends w port m).trans (ih _ _ h)
    · cases h
      exact prt_rd_extends w port m

/-- The error exit only appends to the trace. -/
theorem abort_extends (msg : Msg) (m : Mach) : m.tr <+: (abort msg m).mach.tr := by
  simp [abort, emit, Flow.mach, List.append_assoc]

/-- The bit loop only appends to the trace. -/
theorem bitLoop_extends (fuel : Nat) (w : World) (port : Int) (th d : Nat) (cnt : Nat) :
    ∀ (b : Nat) (m : Mach) (f : Flow),
      bitLoop fuel w port th d cnt b m = some f → m.tr <+: f.mach.tr := by
  induction cnt with
  | zero =>
    intro b m f h
    simp only [bitLoop, Option.some.injEq] at h
    subst h
    exact List.prefix_refl _
  | succ n ih =>
    intro b m f h
    simp only [bitLoop] at h
    split at h
    · cases h
    · rename_i m1 h1
      have p1 := whileLow_extends w port fuel m m1 h1
      split at h
      · cases h
      · rename_i m2 h2
        have p2 := forWait_extends w port true fuel 0 m1 _ h2
        cases h
        exact (p1.trans p2).trans (abort_extends _ m2)
      · rename_i i m2 h2
        have p2 := forWait_extends w port true fuel 0 m1 _ h2
        have p3 := ih _ _ _ h
        refine (p1.trans p2).trans (List.IsPrefix.trans ?_ p3)
        split <;> exact List.prefix_refl _

/-- The byte loop only appends to the trace. -/
theorem byteLoop_extends (fuel : Nat) (w : World) (port : Int) (th : Nat) (cnt : Nat) :
    ∀ (d : Nat) (m : Mach) (f : Flow),
      byteLoop fuel w port th cnt d m = some f → m.tr <+: f.mach.tr := by
  induction cnt with
  | zero =>
    intro d m f h
    simp only [byteLoop, Option.some.injEq] at h
    subst h
    exact List.prefix_refl _
  | succ n ih =>
    intro d m f h
    simp only [byteLoop] at h
    split at h
    · cases h
    · rename_i m1 h1
      cases h
      exact bitLoop_extends fuel w port th d 8 0 m _ h1
    · rename_i m1 h1
      exact (bitLoop_extends fuel w port th d 8 0 m _ h1).trans (ih _ _ _ h)

/-- Every protocol run begins by getting the register map, setting the line to input
and reading it. -/
theorem acquire_begins (fuel : Nat) (w : World) (port : Int) (f : Flow)
    (h : acquire fuel w port = some f) :
    [Event.regs_map, Event.fnc_wr port Fnc.FNC_IN, Event.prt_rd port (w.line 0)]
      <+: f.mach.tr := by
  unfold acquire at h
  simp only at h
  split at h
  · cases h
    simp [abort, emit, prt_rd, Flow.mach]
  · have p0 : [Event.regs_map, Event.fnc_wr port Fnc.FNC_IN, Event.prt_rd port (w.line 0)]
        <+: (emit (Event.fnc_wr port Fnc.FNC_IN) (emit (Event.usleep 1000)
          (emit (Event.prt_wr port 0) (emit (Event.fnc_wr port Fnc.FNC_OUT)
            (prt_rd w port (emit (Event.fnc_wr port Fnc.FNC_IN)
              { k := 0, tr := [Event.regs_map], data := w.garbage })).2)))).tr := by
      simp [emit, prt_rd]
    split at h
    · cases h
    · rename_i m2 h2
      cases h
      exact (p0.trans (forWait_extends _ _ _ _ _ _ _ h2)).trans (abort_extends _ m2)
    · rename_i i2 m2 h2
      have p2 := p0.trans (forWait_extends _ _ _ _ _ _ _ h2)
      split at h
      · cases h
      · rename_i m3 h3
        cases h
        exact (p2.trans (forWait_extends _ _ _ _ _ _ _ h3)).trans (abort_extends _ m3)
      · rename_i i3 m3 h3
        have p3 := p2.trans (forWait_extends _ _ _ _ _ _ _ h3)
        split at h
        · cases h
        · rename_i m4 h4
          cases h
          exact (p3.trans (forWait_extends _ _ _ _ _ _ _ h4)).trans (abort_extends _ m4)
        · rename_i i4 m4 h4
          have p4 := p3.trans (forWait_extends _ _ _ _ _ _ _ h4)
          split at h
          · cases h
          · rename_i m5 h5
            cases h
            exact p4.trans (byteLoop_extends _ _ _ _ _ _ _ _ h5)
          · rename_i m5 h5
            cases h
            refine (p4.trans (byteLoop_extends _ _ _ _ _ _ _ _ h5)).trans ?_
            simp [emit, Flow.mach]

/-- Every result of a hardware attempt has recorded the time of the call in `last`
and has a trace that begins with `regs_map`, followed, when the map is available, by
the switch to input and a read of the line. -/
theorem attempt_trace (fuel : Nat) (w : World) (port : Int) (s : Statics) (hum tmp : Int)
    (r : Result) (h : attempt fuel w port s hum tmp = some r) :
    r.st.last = w.now ∧ [Event.regs_map] <+: r.tr ∧
      (w.mapOk = true →
        [Event.regs_map, Event.fnc_wr port Fnc.FNC_IN, Event.prt_rd port (w.line 0)]
          <+: r.tr) := by
  have hsub : [Event.regs_map] <+:
      [Event.regs_map, Event.fnc_wr port Fnc.FNC_IN, Event.prt_rd port (w.line 0)] :=
    ⟨[Event.fnc_wr port Fnc.FNC_IN, Event.prt_rd port (w.line 0)], rfl⟩
  unfold attempt at h
  simp only at h
  split at h
  · rename_i hm
    cases h
    exact ⟨rfl, ⟨[Event.fprintf Msg.mapFail], rfl⟩, fun h => by simp [hm] at h⟩
  · split at h
    · cases h
    · rename_i m hacq
      cases h
      have p := acquire_begins fuel w port _ hacq
      exact ⟨rfl, hsub.trans p, fun _ => p⟩
    · rename_i m hacq
      cases h
      have p := acquire_begins fuel w port _ hacq
      have hv : m.tr <+: (validate m.data { s with last := w.now } hum tmp m.tr).tr := by
        unfold validate
        simp only
        split
        · exact List.prefix_append _ _
        · exact List.prefix_refl _
      have hl : (validate m.data { s with last := w.now } hum tmp m.tr).st.last = w.now := by
        unfold validate
        simp only
        split <;> rfl
      exact ⟨hl, hsub.trans (p.trans hv), fun _ => p.trans hv⟩

/-! ## Frame validation and decoding -/

/-- C1: when the sampling loop of a call delivers the bytes b0..b4, the call returns 0
and stores the decoded reading exactly when b4 = (b0+b1+b2+b3) mod 256; with any other
b4 it returns -1. -/
theorem checksum_accept_iff (fuel : Nat) (w : World) (port : Int) (s : Statics)
    (hum tmp : Int) (m : Mach) (b0 b1 b2 b3 b4 : Nat)
    (hint : ¬ interval w.now s.last < 2000000) (hmap : w.mapOk = true)
    (hacq : acquire fuel w port = some (Flow.go m))
    (hdata : m.data = [b0, b1, b2, b3, b4]) :
    ∃ r, rht03 fuel w port s hum tmp = some r ∧
      ((r.ret = 0 ∧ r.st.h = (b0 : Int) * 256 + (b1 : Int) ∧ r.hum = r.st.h ∧ r.tmp = r.st.t)
        ↔ b4 = (b0 + b1 + b2 + b3) % 256) ∧
      (b4 ≠ (b0 + b1 + b2 + b3) % 256 → r.ret = -1) := by
  refine ⟨_, rht03_of_frame fuel w port s hum tmp m hint hmap hacq, ?_, ?_⟩
  · by_cases hsum : b4 = (b0 + b1 + b2 + b3) % 256
    · rw [hdata, validate_of_sum b0 b1 b2 b3 b4 _ hum tmp m.tr hsum]
      simp [hsum]
    · rw [hdata, validate_of_mismatch b0 b1 b2 b3 b4 _ hum tmp m.tr hsum]
      simp [hsum]
  · intro hsum
    rw [hdata, validate_of_mismatch b0 b1 b2 b3 b4 _ hum tmp m.tr hsum]

/-- Instance of C1: the sensor sending 02 8C 01 04 93, first call of a process. -/
theorem checksum_accept_iff_witness :
    ∃ r, rht03 16 goodWorld 24 Statics.zero 7 9 = some r ∧
      ((r.ret = 0 ∧ r.st.h = ((0x02 : Nat) : Int) * 256 + ((0x8C : Nat) : Int)
          ∧ r.hum = r.st.h ∧ r.tmp = r.st.t)
        ↔ 0x93 = (0x02 + 0x8C + 0x01 + 0x04) % 256) ∧
      (0x93 ≠ (0x02 + 0x8C + 0x01 + 0x04) % 256 → r.ret = -1) :=
  checksum_accept_iff 16 goodWorld 24 Statics.zero 7 9 _ 0x02 0x8C 0x01 0x04 0x93
    (by decide) (by decide) acquire_goodWorld rfl

/-- C2: for a sampled frame with a valid checksum and M = (byte2 & 0x7F)*256 + byte3,
the call returns 0 and writes -M to the temperature output when bit 7 of byte2 is set
and +M when it is clear. -/
theorem temperature_sign_magnitude (fuel : Nat) (w : World) (port : Int) (s : Statics)
    (hum tmp : Int) (m : Mach) (b0 b1 b2 b3 b4 : Nat)
    (hint : ¬ interval w.now s.last < 2000000) (hmap : w.mapOk = true)
    (hacq : acquire fuel w port = some (Flow.go m))
    (hdata : m.data = [b0, b1, b2, b3, b4])
    (hsum : b4 = (b0 + b1 + b2 + b3) % 256) :
    ∃ r, rht03 fuel w port s hum tmp = some r ∧ r.ret = 0 ∧
      (b2.testBit 7 = true → r.tmp = -(((b2 &&& 0x7F) * 256 + b3 : Nat) : Int)) ∧
      (b2.testBit 7 = false → r.tmp = (((b2 &&& 0x7F) * 256 + b3 : Nat) : Int)) := by
  refine ⟨_, rht03_of_frame fuel w port s hum tmp m hint hmap hacq, ?_, ?_, ?_⟩
  · rw [hdata, validate_of_sum b0 b1 b2 b3 b4 _ hum tmp m.tr hsum]
  · intro hb
    rw [hdata, validate_of_sum b0 b1 b2 b3 b4 _ hum tmp m.tr hsum]
    simp [hb]
  · intro hb
    rw [hdata, validate_of_sum b0 b1 b2 b3 b4 _ hum tmp m.tr hsum]
    simp [hb]

/-- Instance of C2: the sensor sending 01 90 80 65 76 (sign bit set, M = 101). -/
theorem temperature_sign_magnitude_witness :
    ∃ r, rht03 16 coldWorld 24 Statics.zero 7 9 = some r ∧ r.ret = 0 ∧
      (Nat.testBit 0x80 7 = true → r.tmp = -(((0x80 &&& 0x7F) * 256 + 0x65 : Nat) : Int)) ∧
      (Nat.testBit 0x80 7 = false → r.tmp = (((0x80 &&& 0x7F) * 256 + 0x65 : Nat) : Int)) :=
  temperature_sign_magnitude 16 coldWorld 24 Statics.zero 7 9 _ 0x01 0x90 0x80 0x65 0x76
    (by decide) (by decide) acquire_coldWorld rfl (by decide)

/-- C3: for a sampled frame with a valid checksum the call returns 0 and writes
byte0*256 + byte1, a value of the unsigned 16-bit range when the two are bytes, to the
humidity output. -/
theorem humidity_big_endian (fuel : Nat) (w : World) (port : Int) (s : Statics)
    (hum tmp : Int) (m : Mach) (b0 b1 b2 b3 b4 : Nat)
    (hint : ¬ interval w.now s.last < 2000000) (hmap : w.mapOk = true)
    (hacq : acquire fuel w port = some (Flow.go m))
    (hdata : m.data = [b0, b1, b2, b3, b4])
    (hsum : b4 = (b0 + b1 + b2 + b3) % 256) :
    ∃ r, rht03 fuel w port s hum tmp = some r ∧ r.ret = 0 ∧
      r.hum = ((b0 * 256 + b1 : Nat) : Int) ∧
      (b0 < 256 → b1 < 256 → 0 ≤ r.hum ∧ r.hum < 65536) := by
  refine ⟨_, rht03_of_frame fuel w port s hum tmp m hint hmap hacq, ?_, ?_, ?_⟩
  · rw [hdata, validate_of_sum b0 b1 b2 b3 b4 _ hum tmp m.tr hsum]
  · rw [hdata, validate_of_sum b0 b1 b2 b3 b4 _ hum tmp m.tr hsum]
    simp
  · intro h0 h1
    rw [hdata, validate_of_sum b0 b1 b2 b3 b4 _ hum tmp m.tr hsum]
    simp only
    omega

/-- Instance of C3: the sensor sending 02 8C 01 04 93. -/
theorem humidity_big_endian_witness :
    ∃ r, rht03 16 goodWorld 24 Statics.zero 7 9 = some r ∧ r.ret = 0 ∧
      r.hum = ((0x02 * 256 + 0x8C : Nat) : Int) ∧
      (0x02 < 256 → 0x8C < 256 → 0 ≤ r.hum ∧ r.hum < 65536) :=
  humidity_big_endian 16 goodWorld 24 Statics.zero 7 9 _ 0x02 0x8C 0x01 0x04 0x93
    (by decide) (by decide) acquire_goodWorld rfl (by decide)

/-- C4, the scenario as the specification states it: 0x02+0x8C+0x01+0x04 is 0x93, not
0x91, and the call whose sampling loop delivers 02 8C 01 04 91 returns -1 with the
checksum diagnostic, leaving the outputs (7 and 9 before the call) and the stored
reading alone. -/
theorem scenario_frame_rejected :
    (0x02 + 0x8C + 0x01 + 0x04) % 256 = 0x93 ∧
      acquire 16 scenarioWorld 24 = some (Flow.go
        { k := (frameReads scenarioFrame).length,
          tr := frameTrace 24 (frameReads scenarioFrame),
          data := [0x02, 0x8C, 0x01, 0x04, 0x91] }) ∧
      rht03 16 scenarioWorld 24 Statics.zero 7 9 =
        some { ret := -1, hum := 7, tmp := 9,
               st := { last := { tv_sec := 10, tv_nsec := 999 }, h := 0, t := 0 },
               tr := frameTrace 24 (frameReads scenarioFrame)
                 ++ [Event.fprintf Msg.checksumUnmuch] } :=
  ⟨by decide, acquire_scenarioWorld, run_scenarioWorld⟩

/-- C4, amended: every call whose sampling loop delivers 02 8C 01 04 93 passes the
checksum test and returns 0 with humidity 652 and temperature +260, which it also
stores. -/
theorem scenario_frame_93 (fuel : Nat) (w : World) (port : Int) (s : Statics)
    (hum tmp : Int) (m : Mach)
    (hint : ¬ interval w.now s.last < 2000000) (hmap : w.mapOk = true)
    (hacq : acquire fuel w port = some (Flow.go m))
    (hdata : m.data = [0x02, 0x8C, 0x01, 0x04, 0x93]) :
    rht03 fuel w port s hum tmp =
      some { ret := 0, hum := 652, tmp := 260,
             st := { last := w.now, h := 652, t := 260 }, tr := m.tr } := by
  rw [rht03_of_frame fuel w port s hum tmp m hint hmap hacq, hdata,
    validate_of_sum 0x02 0x8C 0x01 0x04 0x93 _ hum tmp m.tr (by decide)]
  simp
  decide

/-- Instance of the amended C4: the sensor sending 02 8C 01 04 93. -/
theorem scenario_frame_93_witness :
    rht03 16 goodWorld 24 Statics.zero 7 9 =
      some { ret := 0, hum := 652, tmp := 260,
             st := { last := goodWorld.now, h := 652, t := 260 },
             tr := frameTrace 24 (frameReads goodFrame) } :=
  scenario_frame_93 16 goodWorld 24 Statics.zero 7 9 _ (by decide) (by decide)
    acquire_goodWorld rfl

/-! ## Outputs and statics of a failed call -/

/-- C5: a call that returns -1 (whatever the reason) leaves the contents of the
humidity and temperature variables of the caller as they were before the call. -/
theorem failure_keeps_outputs (fuel : Nat) (w : World) (port : Int) (s : Statics)
    (hum tmp : Int) (r : Result)
    (h : rht03 fuel w port s hum tmp = some r) (hret : r.ret = -1) :
    r.hum = hum ∧ r.tmp = tmp := by
  unfold rht03 at h
  split at h
  · cases h
    simp at hret
  · obtain ⟨h1, h2, _⟩ := attempt_fail fuel w port s hum tmp r h hret
    exact ⟨h1, h2⟩

/-- Instance of C5: the call that receives a frame with a wrong checksum. -/
theorem failure_keeps_outputs_witness :
    rht03 16 scenarioWorld 24 Statics.zero 7 9 = some scenarioResult ∧
      scenarioResult.ret = -1 ∧ scenarioResult.hum = 7 ∧ scenarioResult.tmp = 9 :=
  ⟨run_scenarioWorld, rfl,
    failure_keeps_outputs 16 scenarioWorld 24 Statics.zero 7 9 scenarioResult
      run_scenarioWorld rfl⟩

/-- C9, as stated, refuted: the first call of a process, made at 10.000000999 s against
a busy bus, attempts a hardware read and returns -1, and the statics after it differ
from the statics before it: `last` holds the time of the call. -/
theorem failed_attempt_moves_timestamp :
    rht03 16 (busyWorld { tv_sec := 10, tv_nsec := 999 }) 24 Statics.zero 7 9 =
        some { ret := -1, hum := 7, tmp := 9,
               st := { last := { tv_sec := 10, tv_nsec := 999 }, h := 0, t := 0 },
               tr := busyTrace 24 } ∧
      ({ last := { tv_sec := 10, tv_nsec := 999 }, h := 0, t := 0 } : Statics)
        ≠ Statics.zero := by
  decide

/-- C9, amended: a call that attempts a hardware read and returns -1 leaves the stored
reading (h, t) as it was, and has overwritten the stored timestamp `last` with the
time of the call. -/
theorem failed_attempt_keeps_reading (fuel : Nat) (w : World) (port : Int) (s : Statics)
    (hum tmp : Int) (r : Result)
    (hint : ¬ interval w.now s.last < 2000000)
    (h : rht03 fuel w port s hum tmp = some r) (hret : r.ret = -1) :
    r.st.h = s.h ∧ r.st.t = s.t ∧ r.st.last = w.now := by
  unfold rht03 at h
  rw [if_neg hint] at h
  obtain ⟨_, _, h3⟩ := attempt_fail fuel w port s hum tmp r h hret
  rw [h3]
  exact ⟨rfl, rfl, rfl⟩

/-- Instance of the amended C9: a stored reading of 65.2 % and 26.0 degrees taken at
10.000000999 s survives the failed call at 13 s, the timestamp does not. -/
theorem failed_attempt_keeps_reading_witness :
    busyResult.st.h = 652 ∧ busyResult.st.t = 260 ∧
      busyResult.st.last = { tv_sec := 13, tv_nsec := 0 } :=
  failed_attempt_keeps_reading 16 (busyWorld { tv_sec := 13, tv_nsec := 0 }) 24
    { last := { tv_sec := 10, tv_nsec := 999 }, h := 652, t := 260 } 7 9 busyResult
    (by decide) (by decide) rfl

/-! ## The interval check -/

/-- A call made up to 2 s - 1 us of monotonic time after the stored timestamp is
answered from the stored reading without any register-map or bus operation. -/
theorem debounce_hit (fuel : Nat) (w : World) (port : Int) (s : Statics) (hum tmp : Int)
    (h0 : 0 ≤ elapsedNs w.now s.last) (h1 : elapsedNs w.now s.last + 1000 ≤ 2000000000) :
    rht03 fuel w port s hum tmp =
      some { ret := 0, hum := s.h, tmp := s.t, st := s, tr := [] } := by
  unfold rht03
  rw [if_pos (interval_lt_of_elapsed w.now s.last h0 h1)]

/-- A call made from 2 s up to 2^32 us - 1 us of monotonic time after the stored
timestamp is not answered from the cache: it is a hardware attempt. -/
theorem debounce_miss (fuel : Nat) (w : World) (port : Int) (s : Statics) (hum tmp : Int)
    (h0 : 2000000000 ≤ elapsedNs w.now s.last)
    (h1 : elapsedNs w.now s.last + 1000 ≤ 4294967296000) :
    rht03 fuel w port s hum tmp = attempt fuel w port s hum tmp := by
  unfold rht03
  rw [if_neg (interval_ge_of_elapsed w.now s.last h0 h1)]

/-- C6, evaluated where it fails: the first call (at 10.000000999 s) performs a
successful hardware read; the second call is issued at 12.000000000 s, that is
1.999999001 s later; `usec` is 2 * 1000000 + (0 - 999) / 1000 = 2000000, and the
second call gets the register map, reads the line and, the bus being busy, returns -1. -/
theorem retry_below_two_seconds_reads_again :
    rht03 16 goodWorld 24 Statics.zero 7 9 =
        some { ret := 0, hum := 652, tmp := 260,
               st := { last := { tv_sec := 10, tv_nsec := 999 }, h := 652, t := 260 },
               tr := frameTrace 24 (frameReads goodFrame) } ∧
      elapsedNs { tv_sec := 12, tv_nsec := 0 } { tv_sec := 10, tv_nsec := 999 }
        = 1999999001 ∧
      interval { tv_sec := 12, tv_nsec := 0 } { tv_sec := 10, tv_nsec := 999 }
        = 2000000 ∧
      rht03 16 (busyWorld { tv_sec := 12, tv_nsec := 0 }) 24
          { last := { tv_sec := 10, tv_nsec := 999 }, h := 652, t := 260 } 652 260 =
        some { ret := -1, hum := 652, tmp := 260,
               st := { last := { tv_sec := 12, tv_nsec := 0 }, h := 652, t := 260 },
               tr := busyTrace 24 } :=
  ⟨run_goodWorld, by decide, by decide, by decide⟩

/-- C7, evaluated where it fails: with a reading stored at 10.000000999 s, a call issued
4295 s later computes `usec` = 4295000000 mod 2^32 = 32704 and is answered from the
cache, with an empty trace, although the sensor would now send another frame. -/
theorem long_pause_answered_from_cache :
    elapsedNs { tv_sec := 4305, tv_nsec := 999 } { tv_sec := 10, tv_nsec := 999 }
        = 4295000000000 ∧
      interval { tv_sec := 4305, tv_nsec := 999 } { tv_sec := 10, tv_nsec := 999 }
        = 32704 ∧
      rht03 16 (worldOf { tv_sec := 4305, tv_nsec := 999 } (frameReads coldFrame)) 24
          { last := { tv_sec := 10, tv_nsec := 999 }, h := 652, t := 260 } 0 0 =
        some { ret := 0, hum := 652, tmp := 260,
               st := { last := { tv_sec := 10, tv_nsec := 999 }, h := 652, t := 260 },
               tr := [] } := by
  decide

/-- C8, as stated, refuted: the first call of a process, made when the monotonic clock
reads 1.5 s, returns 0 with the zero-initialised values and an empty trace. -/
theorem first_call_below_two_seconds_cached :
    rht03 16 (worldOf { tv_sec := 1, tv_nsec := 500000000 } (frameReads goodFrame)) 24
        Statics.zero 7 9 =
      some { ret := 0, hum := 0, tmp := 0, st := Statics.zero, tr := [] } := by
  decide

/-- C8, amended: the first call of a process is a hardware attempt whenever the
monotonic clock reads at least 2 s and less than 2^32 us; every result of it has
recorded the time in `last` and has a trace that begins with `regs_map` and, when the
map is available, goes on with the switch to input and a read of the line. With a clock
below 2 s the call returns 0 with the zero-initialised values and an empty trace. -/
theorem first_call_attempts (fuel : Nat) (w : World) (port : Int) (hum tmp : Int)
    (hn : 0 ≤ w.now.tv_nsec ∧ w.now.tv_nsec < 1000000000) (hs : 0 ≤ w.now.tv_sec) :
    (2 ≤ w.now.tv_sec → w.now.tv_sec * 1000000000 + w.now.tv_nsec < 4294967296000 →
        rht03 fuel w port Statics.zero hum tmp = attempt fuel w port Statics.zero hum tmp ∧
        ∀ r, rht03 fuel w port Statics.zero hum tmp = some r →
          r.st.last = w.now ∧ [Event.regs_map] <+: r.tr ∧
          (w.mapOk = true →
            [Event.regs_map, Event.fnc_wr port Fnc.FNC_IN, Event.prt_rd port (w.line 0)]
              <+: r.tr)) ∧
      (w.now.tv_sec < 2 →
        rht03 fuel w port Statics.zero hum tmp =
          some { ret := 0, hum := 0, tmp := 0, st := Statics.zero, tr := [] }) := by
  obtain ⟨hn0, hn1⟩ := hn
  have hdiv : (w.now.tv_nsec - 0).tdiv 1000 = w.now.tv_nsec / 1000 := by
    rw [sub_zero]
    exact Int.tdiv_eq_ediv hn0 (by decide)
  constructor
  · intro h2 h3
    have hint : ¬ interval w.now Statics.zero.last < 2000000 := by
      unfold interval
      simp only [Statics.zero]
      rw [hdiv]
      omega
    have heq : rht03 fuel w port Statics.zero hum tmp
        = attempt fuel w port Statics.zero hum tmp := by
      unfold rht03
      rw [if_neg hint]
    refine ⟨heq, fun r hr => ?_⟩
    rw [heq] at hr
    exact attempt_trace fuel w port Statics.zero hum tmp r hr
  · intro h2
    have hint : interval w.now Statics.zero.last < 2000000 := by
      unfold interval
      simp only [Statics.zero]
      rw [hdiv, Int.emod_eq_of_lt (by omega) (by omega)]
      omega
    unfold rht03
    rw [if_pos hint]
    rfl

/-- Instance of the amended C8: at 10.000000999 s the first call is the hardware
attempt and its result begins with the three events; at 1.5 s it is answered with the
zero-initialised values. -/
theorem first_call_attempts_witness :
    (rht03 16 goodWorld 24 Statics.zero 7 9 = attempt 16 goodWorld 24 Statics.zero 7 9 ∧
        goodResult.st.last = goodWorld.now ∧ [Event.regs_map] <+: goodResult.tr ∧
        (goodWorld.mapOk = true →
          [Event.regs_map, Event.fnc_wr 24 Fnc.FNC_IN, Event.prt_rd 24 (goodWorld.line 0)]
            <+: goodResult.tr)) ∧
      rht03 16 (worldOf { tv_sec := 1, tv_nsec := 500000000 } (frameReads goodFrame)) 24
          Statics.zero 7 9 =
        some { ret := 0, hum := 0, tmp := 0, st := Statics.zero, tr := [] } :=
  ⟨⟨((first_call_attempts 16 goodWorld 24 7 9 (by decide) (by decide)).1
        (by decide) (by decide)).1,
      ((first_call_attempts 16 goodWorld 24 7 9 (by decide) (by decide)).1
        (by decide) (by decide)).2 goodResult run_goodWorld⟩,
    (first_call_attempts 16
      (worldOf { tv_sec := 1, tv_nsec := 500000000 } (frameReads goodFrame)) 24 7 9
      (by decide) (by decide)).2 (by decide)⟩

/-- C10, evaluated where it fails: the first call of a process, at T = 100.000000500 s,
finds the bus busy and returns -1; the following call at 102.000000000 s, that is
1.999999500 s after T, computes `usec` = 2000000, gets the register map, reads the line
and returns -1 again instead of answering 0 from the stored values. -/
theorem retry_after_failure_reads_again :
    rht03 16 (busyWorld { tv_sec := 100, tv_nsec := 500 }) 24 Statics.zero 7 9 =
        some { ret := -1, hum := 7, tmp := 9,
               st := { last := { tv_sec := 100, tv_nsec := 500 }, h := 0, t := 0 },
               tr := busyTrace 24 } ∧
      elapsedNs { tv_sec := 102, tv_nsec := 0 } { tv_sec := 100, tv_nsec := 500 }
        = 1999999500 ∧
      interval { tv_sec := 102, tv_nsec := 0 } { tv_sec := 100, tv_nsec := 500 }
        = 2000000 ∧
      rht03 16 (busyWorld { tv_sec := 102, tv_nsec := 0 }) 24
          { last := { tv_sec := 100, tv_nsec := 500 }, h := 0, t := 0 } 7 9 =
        some { ret := -1, hum := 7, tmp := 9,
               st := { last := { tv_sec := 102, tv_nsec := 0 }, h := 0, t := 0 },
               tr := busyTrace 24 } := by
  decide

/-! ## The loops as one flat loop -/

/-- The error exit in terms of its machine state. -/
theorem abort_eq (msg : Msg) (m : Mach) :
    abort msg m = Flow.ret (emit Event.munmap (emit (Event.fprintf msg) m)) := rfl

/-- The protocol code is the handshake followed by the sampling loops and `munmap`. -/
theorem acquire_eq_handshake (fuel : Nat) (w : World) (port : Int) :
    acquire fuel w port =
      match handshake fuel w port with
      | none => none
      | some (Shake.ret m) => some (Flow.ret m)
      | some (Shake.ready n m) =>
        match byteLoop fuel w port (n * 50 / 80) 5 0 m with
        | none => none
        | some (Flow.ret m5) => some (Flow.ret m5)
        | some (Flow.go m5) => some (Flow.go (emit Event.munmap m5)) := by
  unfold acquire handshake
  simp only [startMach]
  split
  · rfl
  · cases h1 : forWait w port true fuel 0 (emit (Event.fnc_wr port Fnc.FNC_IN)
        (emit (Event.usleep 1000) (emit (Event.prt_wr port 0)
          (emit (Event.fnc_wr port Fnc.FNC_OUT)
            (prt_rd w port (emit (Event.fnc_wr port Fnc.FNC_IN)
              { k := 0, tr := [Event.regs_map], data := w.garbage })).2)))) with
    | none => rfl
    | some r1 =>
      cases r1 with
      | timeout m2 => rfl
      | done i1 m2 =>
        simp only []
        cases h2 : forWait w port false fuel 0 m2 with
        | none => rfl
        | some r2 =>
          cases r2 with
          | timeout m3 => rfl
          | done i2 m3 =>
            simp only []
            cases h3 : forWait w port true fuel 0 m3 with
            | none => rfl
            | some r3 =>
              cases r3 with
              | timeout m4 => rfl
              | done i3 m4 => rfl

/-- One iteration of the flat loop whose two waits end regularly. -/
theorem sample_succ (fuel : Nat) (w : World) (port : Int) (th n j : Nat) (m m1 m2 : Mach)
    (c : Nat) (hw : whileLow w port fuel m = some m1)
    (hf : forWait w port true fuel 0 m1 = some (Wait.done c m2)) :
    sample fuel w port th (n + 1) j m =
      match sample fuel w port th n (j + 1) (storeBit th (j / 8) c m2) with
      | none => none
      | some (f, cs) => some (f, c :: cs) := by
  simp only [sample, hw, hf]

/-- The bit loop of byte `d` is the flat loop run from bit number `8 * d + b`. -/
theorem bitLoop_eq_sample (fuel : Nat) (w : World) (port : Int) (th d : Nat) (cnt : Nat) :
    ∀ (b : Nat) (m : Mach), b + cnt ≤ 8 →
      bitLoop fuel w port th d cnt b m
        = (sample fuel w port th cnt (8 * d + b) m).map Prod.fst := by
  induction cnt with
  | zero =>
    intro b m _
    simp [bitLoop, sample]
  | succ n ih =>
    intro b m hb
    have hd : (8 * d + b) / 8 = d := by omega
    have hm : (8 * d + b) % 8 = b := by omega
    simp only [bitLoop, sample]
    cases hw : whileLow w port fuel m with
    | none => rfl
    | some m1 =>
      simp only []
      cases hf : forWait w port true fuel 0 m1 with
      | none => rfl
      | some r =>
        cases r with
        | timeout m2 => simp [hd, hm]
        | done i m2 =>
          simp only []
          have h := ih (b + 1) (storeBit th d i m2) (by omega)
          rw [hd]
          simp only [storeBit] at h
          rw [show 8 * d + b + 1 = 8 * d + (b + 1) by omega]
          rw [h]
          simp only [storeBit]
          cases sample fuel w port th n (8 * d + (b + 1)) _ with
          | none => rfl
          | some p => rfl

/-- Running `a + c` iterations of the flat loop is running `a` and then `c`. -/
theorem sample_add (fuel : Nat) (w : World) (port : Int) (th : Nat) (a c : Nat) :
    ∀ (j : Nat) (m : Mach),
      sample fuel w port th (a + c) j m =
        match sample fuel w port th a j m with
        | none => none
        | some (Flow.ret x, cs) => some (Flow.ret x, cs)
        | some (Flow.go x, cs) =>
          match sample fuel w port th c (j + a) x with
          | none => none
          | some (f, cs1) => some (f, cs ++ cs1) := by
  induction a with
  | zero =>
    intro j m
    simp only [Nat.zero_add, sample, Nat.add_zero, List.nil_append]
    cases sample fuel w port th c j m with
    | none => rfl
    | some p => rfl
  | succ n ih =>
    intro j m
    rw [show n + 1 + c = (n + c) + 1 by omega]
    simp only [sample]
    cases hw : whileLow w port fuel m with
    | none => rfl
    | some m1 =>
      simp only []
      cases hf : forWait w port true fuel 0 m1 with
      | none => rfl
      | some r =>
        cases r with
        | timeout m2 => rfl
        | done i m2 =>
          simp only []
          rw [ih (j + 1) (storeBit th (j / 8) i m2)]
          cases hs : sample fuel w port th n (j + 1) (storeBit th (j / 8) i m2) with
          | none => rfl
          | some p =>
            obtain ⟨f, cs⟩ := p
            cases f with
            | ret x => rfl
            | go x =>
              simp only []
              rw [show j + 1 + n = j + (n + 1) by omega]
              cases sample fuel w port th c (j + (n + 1)) x with
              | none => rfl
              | some q => rfl

/-- The byte loop is the flat loop over the remaining bits. -/
theorem byteLoop_eq_sample (fuel : Nat) (w : World) (port : Int) (th : Nat) (cnt : Nat) :
    ∀ (d : Nat) (m : Mach),
      byteLoop fuel w port th cnt d m
        = (sample fuel w port th (8 * cnt) (8 * d) m).map Prod.fst := by
  induction cnt with
  | zero =>
    intro d m
    simp [byteLoop, sample]
  | succ n ih =>
    intro d m
    rw [show 8 * (n + 1) = 8 + 8 * n by omega, sample_add]
    simp only [byteLoop]
    rw [bitLoop_eq_sample fuel w port th d 8 0 m (by omega)]
    simp only [Nat.add_zero]
    cases hs : sample fuel w port th 8 (8 * d) m with
    | none => rfl
    | some p =>
      obtain ⟨f, cs⟩ := p
      cases f with
      | ret x => rfl
      | go x =>
        simp only [Option.map]
        rw [ih (d + 1) x, show 8 * (d + 1) = 8 * d + 8 by omega]
        cases sample fuel w port th (8 * n) (8 * d + 8) x with
        | none => rfl
        | some q => rfl

/-- The protocol code is the handshake followed by the forty iterations of the flat
loop and `munmap`. -/
theorem acquire_eq_sample (fuel : Nat) (w : World) (port : Int) :
    acquire fuel w port =
      match handshake fuel w port with
      | none => none
      | some (Shake.ret m) => some (Flow.ret m)
      | some (Shake.ready n m) =>
        match sample fuel w port (n * 50 / 80) 40 0 m with
        | none => none
        | some (Flow.ret m5, _) => some (Flow.ret m5)
        | some (Flow.go m5, _) => some (Flow.go (emit Event.munmap m5)) := by
  rw [acquire_eq_handshake]
  cases handshake fuel w port with
  | none => rfl
  | some sh =>
    cases sh with
    | ret m => rfl
    | ready n m =>
      simp only []
      rw [byteLoop_eq_sample]
      cases sample fuel w port (n * 50 / 80) (8 * 5) (8 * 0) m with
      | none => rfl
      | some p =>
        obtain ⟨f, cs⟩ := p
        cases f <;> rfl

/-! ## The waits -/

/-- What holds of the machine before a bounded wait and is kept by every read holds
of the machine the wait ends in. -/
theorem forWait_induct (w : World) (port : Int) (lvl : Bool) (P : Mach → Prop)
    (hP : ∀ m, P m → P (prt_rd w port m).2) (fuel : Nat) :
    ∀ (i : Nat) (m : Mach) (r : Wait),
      P m → forWait w port lvl fuel i m = some r → P r.mach := by
  induction fuel with
  | zero =>
    intro i m r _ h
    simp [forWait] at h
  | succ n ih =>
    intro i m r hm h
    simp only [forWait] at h
    split at h
    · split at h
      · cases h
        exact hP m hm
      · exact ih _ _ _ (hP m hm) h
    · cases h
      exact hP m hm

/-- What holds of the machine before the rising-edge wait and is kept by every read
holds of the machine the wait ends in. -/
theorem whileLow_induct (w : World) (port : Int) (P : Mach → Prop)
    (hP : ∀ m, P m → P (prt_rd w port m).2) (fuel : Nat) :
    ∀ (m m1 : Mach), P m → whileLow w port fuel m = some m1 → P m1 := by
  induction fuel with
  | zero =>
    intro m m1 _ h
    simp [whileLow] at h
  | succ n ih =>
    intro m m1 hm h
    simp only [whileLow] at h
    split at h
    · exact ih _ _ (hP m hm) h
    · cases h
      exact hP m hm

/-- A bounded wait started with a counter of at most TIMEOUT + 1 makes at least one and
at most TIMEOUT + 2 - i reads; when it ends regularly, the count it hands on is the
start value plus the number of reads but the last, and the last read differed from the
level waited on. -/
theorem forWait_reads (w : World) (port : Int) (lvl : Bool) (fuel : Nat) :
    ∀ (i : Nat) (m : Mach) (r : Wait), i ≤ TIMEOUT + 1 →
      forWait w port lvl fuel i m = some r →
        m.k + 1 ≤ r.mach.k ∧ r.mach.k + i ≤ m.k + (TIMEOUT + 2) ∧
        (∀ j m1, r = Wait.done j m1 →
          j + m.k + 1 = i + m1.k ∧ w.line (m1.k - 1) ≠ lvl) ∧
        (∀ m1, r = Wait.timeout m1 → m1.k + i = m.k + (TIMEOUT + 2)) ∧
        (∀ t, m.k ≤ t → t + 1 < r.mach.k → w.line t = lvl) := by
  induction fuel with
  | zero =>
    intro i m r _ h
    simp [forWait] at h
  | succ n ih =>
    intro i m r hi h
    simp only [forWait] at h
    split at h
    · rename_i hl
      split at h
      · rename_i ht
        cases h
        simp only [Wait.mach, prt_rd, TIMEOUT] at *
        refine ⟨by omega, by omega, ?_, ?_, ?_⟩
        · intro j m1 h
          cases h
        · intro m1 h
          cases h
          simp only
          omega
        · intro t h1 h2
          omega
      · rename_i ht
        obtain ⟨h1, h2, h3, h4, h5⟩ := ih (i + 1) _ r (by omega) h
        simp only [prt_rd] at h1 h2 h3 h4 h5 hl
        refine ⟨by omega, by omega, ?_, ?_, ?_⟩
        · intro j m1 hr
          obtain ⟨h6, h7⟩ := h3 j m1 hr
          exact ⟨by omega, h7⟩
        · intro m1 hr
          have := h4 m1 hr
          omega
        · intro t ht1 ht2
          rcases Nat.eq_or_lt_of_le ht1 with h | h
          · rw [← h]
            exact hl
          · exact h5 t (by omega) ht2
    · rename_i hl
      cases h
      simp only [Wait.mach, prt_rd] at *
      refine ⟨by omega, by omega, ?_, ?_, ?_⟩
      · intro j m1 h
        cases h
        simp only [Nat.add_sub_cancel]
        exact ⟨by omega, hl⟩
      · intro m1 h
        cases h
      · intro t h1 h2
        omega

/-- A bounded wait with enough fuel ends. -/
theorem forWait_total (w : World) (port : Int) (lvl : Bool) (fuel : Nat) :
    ∀ (i : Nat) (m : Mach), 1 ≤ fuel → TIMEOUT + 2 ≤ fuel + i →
      ∃ r, forWait w port lvl fuel i m = some r := by
  induction fuel with
  | zero =>
    intro i m h
    omega
  | succ n ih =>
    intro i m _ h2
    simp only [forWait]
    split
    · split
      · exact ⟨_, rfl⟩
      · rename_i ht
        simp only [TIMEOUT] at ht h2
        exact ih (i + 1) _ (by omega) (by simp only [TIMEOUT]; omega)
    · exact ⟨_, rfl⟩

/-- More fuel does not change how a bounded wait ends. -/
theorem forWait_mono (w : World) (port : Int) (lvl : Bool) (fuel e : Nat) :
    ∀ (i : Nat) (m : Mach) (r : Wait),
      forWait w port lvl fuel i m = some r → forWait w port lvl (fuel + e) i m = some r := by
  induction fuel with
  | zero =>
    intro i m r h
    simp [forWait] at h
  | succ n ih =>
    intro i m r h
    rw [show n + 1 + e = (n + e) + 1 by omega]
    simp only [forWait] at h ⊢
    split
    · rename_i hl
      rw [if_pos hl] at h
      split
      · rename_i ht
        rw [if_pos ht] at h
        exact h
      · rename_i ht
        rw [if_neg ht] at h
        exact ih _ _ _ h
    · rename_i hl
      rw [if_neg hl] at h
      exact h

/-- More fuel does not change how the rising-edge wait ends. -/
theorem whileLow_mono (w : World) (port : Int) (fuel e : Nat) :
    ∀ (m m1 : Mach),
      whileLow w port fuel m = some m1 → whileLow w port (fuel + e) m = some m1 := by
  induction fuel with
  | zero =>
    intro m m1 h
    simp [whileLow] at h
  | succ n ih =>
    intro m m1 h
    rw [show n + 1 + e = (n + e) + 1 by omega]
    simp only [whileLow] at h ⊢
    split
    · rename_i hl
      rw [if_pos hl] at h
      exact ih _ _ h
    · rename_i hl
      rw [if_neg hl] at h
      exact h

/-- On a line that stays at the level waited on, a bounded wait with enough fuel ends
in its timeout, after TIMEOUT + 2 reads when started with counter 0. -/
theorem forWait_stuck (w : World) (port : Int) (lvl : Bool) (fuel : Nat) (m : Mach)
    (hfuel : TIMEOUT + 2 ≤ fuel) (hl : ∀ t, m.k ≤ t → w.line t = lvl) :
    ∃ m1, forWait w port lvl fuel 0 m = some (Wait.timeout m1) ∧
      m1.k = m.k + (TIMEOUT + 2) := by
  obtain ⟨r, hr⟩ := forWait_total w port lvl fuel 0 m (by simp only [TIMEOUT] at hfuel; omega)
    (by omega)
  obtain ⟨h1, h2, h3, h4, _⟩ := forWait_reads w port lvl fuel 0 m r (by omega) hr
  cases r with
  | done j m1 =>
    obtain ⟨h5, h6⟩ := h3 j m1 rfl
    exact absurd (hl (m1.k - 1) (by simp only [Wait.mach] at h1; omega)) h6
  | timeout m1 =>
    refine ⟨m1, hr, ?_⟩
    have := h4 m1 rfl
    omega

/-- On a line that stays low the rising-edge wait never ends. -/
theorem whileLow_stuck (w : World) (port : Int) (fuel : Nat) :
    ∀ (m : Mach), (∀ t, m.k ≤ t → w.line t = false) → whileLow w port fuel m = none := by
  induction fuel with
  | zero =>
    intro m _
    rfl
  | succ n ih =>
    intro m hl
    simp only [whileLow]
    rw [if_pos (by simpa [prt_rd] using hl m.k (le_refl _))]
    exact ih _ (fun t ht => hl t (by simp only [prt_rd] at ht; omega))

/-- On a line that is high at some later read the rising-edge wait ends, given fuel
for the reads up to that one. -/
theorem whileLow_high (w : World) (port : Int) (t : Nat) :
    ∀ (fuel : Nat) (m : Mach), w.line (m.k + t) = true → t < fuel →
      ∃ m1, whileLow w port fuel m = some m1 := by
  induction t with
  | zero =>
    intro fuel m hl hf
    obtain ⟨n, rfl⟩ : ∃ n, fuel = n + 1 := ⟨fuel - 1, by omega⟩
    simp only [whileLow]
    rw [if_neg (by simpa [prt_rd] using hl)]
    exact ⟨_, rfl⟩
  | succ t ih =>
    intro fuel m hl hf
    obtain ⟨n, rfl⟩ : ∃ n, fuel = n + 1 := ⟨fuel - 1, by omega⟩
    simp only [whileLow]
    split
    · exact ih n _ (by simp only [prt_rd]; rw [← hl]; congr 1; omega) (by omega)
    · exact ⟨_, rfl⟩

/-! ## Fuel -/

/-- Storing a bit changes neither the read counter nor the trace. -/
theorem storeBit_k_tr (th d i : Nat) (m : Mach) :
    (storeBit th d i m).k = m.k ∧ (storeBit th d i m).tr = m.tr := by
  unfold storeBit
  simp only
  split <;> exact ⟨rfl, rfl⟩

/-- More fuel does not change how the flat loop ends. -/
theorem sample_mono (fuel e : Nat) (w : World) (port : Int) (th : Nat) (n : Nat) :
    ∀ (j : Nat) (m : Mach) (p : Flow × List Nat),
      sample fuel w port th n j m = some p → sample (fuel + e) w port th n j m = some p := by
  induction n with
  | zero =>
    intro j m p h
    simp only [sample] at h ⊢
    exact h
  | succ n ih =>
    intro j m p h
    simp only [sample] at h ⊢
    cases hw : whileLow w port fuel m with
    | none => simp [hw] at h
    | some m1 =>
      rw [hw] at h
      rw [whileLow_mono w port fuel e m m1 hw]
      simp only [] at h ⊢
      cases hf : forWait w port true fuel 0 m1 with
      | none => simp [hf] at h
      | some r =>
        rw [hf] at h
        rw [forWait_mono w port true fuel e 0 m1 r hf]
        cases r with
        | timeout m2 => exact h
        | done i m2 =>
          simp only [] at h ⊢
          cases hs : sample fuel w port th n (j + 1) (storeBit th (j / 8) i m2) with
          | none => simp [hs] at h
          | some q =>
            rw [hs] at h
            rw [ih _ _ q hs]
            exact h

/-- More fuel does not change how the handshake ends. -/
theorem handshake_mono (fuel e : Nat) (w : World) (port : Int) (sh : Shake)
    (h : handshake fuel w port = some sh) : handshake (fuel + e) w port = some sh := by
  unfold handshake at h ⊢
  simp only at h ⊢
  split
  · rename_i hb
    rw [if_pos hb] at h
    exact h
  · rename_i hb
    rw [if_neg hb] at h
    cases h1 : forWait w port true fuel 0 (startMach w port) with
    | none => simp [h1] at h
    | some r1 =>
      rw [h1] at h
      rw [forWait_mono w port true fuel e 0 _ r1 h1]
      cases r1 with
      | timeout m2 => exact h
      | done i1 m2 =>
        simp only [] at h ⊢
        cases h2 : forWait w port false fuel 0 m2 with
        | none => simp [h2] at h
        | some r2 =>
          rw [h2] at h
          rw [forWait_mono w port false fuel e 0 _ r2 h2]
          cases r2 with
          | timeout m3 => exact h
          | done i2 m3 =>
            simp only [] at h ⊢
            cases h3 : forWait w port true fuel 0 m3 with
            | none => simp [h3] at h
            | some r3 =>
              rw [h3] at h
              rw [forWait_mono w port true fuel e 0 _ r3 h3]
              cases r3 with
              | timeout m4 => exact h
              | done i3 m4 => exact h

/-- With fuel for TIMEOUT + 2 iterations the handshake ends. -/
theorem handshake_total (fuel : Nat) (w : World) (port : Int) (hfuel : TIMEOUT + 2 ≤ fuel) :
    ∃ sh, handshake fuel w port = some sh := by
  have h1 : 1 ≤ fuel := by simp only [TIMEOUT] at hfuel; omega
  unfold handshake
  simp only
  split
  · exact ⟨_, rfl⟩
  · obtain ⟨r1, hr1⟩ := forWait_total w port true fuel 0 (startMach w port) h1 (by omega)
    rw [hr1]
    cases r1 with
    | timeout m2 => exact ⟨_, rfl⟩
    | done i1 m2 =>
      obtain ⟨r2, hr2⟩ := forWait_total w port false fuel 0 m2 h1 (by omega)
      simp only [hr2]
      cases r2 with
      | timeout m3 => exact ⟨_, rfl⟩
      | done i2 m3 =>
        obtain ⟨r3, hr3⟩ := forWait_total w port true fuel 0 m3 h1 (by omega)
        simp only [hr3]
        cases r3 with
        | timeout m4 => exact ⟨_, rfl⟩
        | done i3 m4 => exact ⟨_, rfl⟩

/-- The hardware attempt in terms of the handshake and the flat loop. -/
theorem attempt_eq (fuel : Nat) (w : World) (port : Int) (s : Statics) (hum tmp : Int)
    (hmap : w.mapOk = true) :
    attempt fuel w port s hum tmp =
      match handshake fuel w port with
      | none => none
      | some (Shake.ret m) =>
        some { ret := -1, hum := hum, tmp := tmp, st := { s with last := w.now }, tr := m.tr }
      | some (Shake.ready n m) =>
        match sample fuel w port (n * 50 / 80) 40 0 m with
        | none => none
        | some (Flow.ret m5, _) =>
          some { ret := -1, hum := hum, tmp := tmp, st := { s with last := w.now },
                 tr := m5.tr }
        | some (Flow.go m5, _) =>
          some (validate m5.data { s with last := w.now } hum tmp
            (m5.tr ++ [Event.munmap])) := by
  unfold attempt
  simp only [hmap, Bool.true_eq_false, if_false]
  rw [acquire_eq_sample]
  cases handshake fuel w port with
  | none => rfl
  | some sh =>
    cases sh with
    | ret m => rfl
    | ready n m =>
      simp only []
      cases sample fuel w port (n * 50 / 80) 40 0 m with
      | none => rfl
      | some p =>
        obtain ⟨f, cs⟩ := p
        cases f <;> rfl

/-- More fuel does not change what a call returns. -/
theorem rht03_mono (fuel e : Nat) (w : World) (port : Int) (s : Statics) (hum tmp : Int)
    (r : Result) (h : rht03 fuel w port s hum tmp = some r) :
    rht03 (fuel + e) w port s hum tmp = some r := by
  unfold rht03 at h ⊢
  split
  · rename_i hc
    rw [if_pos hc] at h
    exact h
  · rename_i hc
    rw [if_neg hc] at h
    cases hm : w.mapOk with
    | false =>
      unfold attempt at h ⊢
      simp only [hm, if_true] at h ⊢
      exact h
    | true =>
      rw [attempt_eq _ _ _ _ _ _ hm] at h ⊢
      cases hh : handshake fuel w port with
      | none => simp [hh] at h
      | some sh =>
        rw [hh] at h
        rw [handshake_mono fuel e w port sh hh]
        cases sh with
        | ret m => exact h
        | ready n m =>
          simp only [] at h ⊢
          cases hs : sample fuel w port (n * 50 / 80) 40 0 m with
          | none => simp [hs] at h
          | some p =>
            rw [hs] at h
            rw [sample_mono fuel e w port _ 40 0 m p hs]
            exact h

/-- Two amounts of fuel with which a call returns give the same result. -/
theorem rht03_fuel_irrelevant (f1 f2 : Nat) (w : World) (port : Int) (s : Statics)
    (hum tmp : Int) (r1 r2 : Result) (h1 : rht03 f1 w port s hum tmp = some r1)
    (h2 : rht03 f2 w port s hum tmp = some r2) : r1 = r2 := by
  have e1 := rht03_mono f1 f2 w port s hum tmp r1 h1
  have e2 := rht03_mono f2 f1 w port s hum tmp r2 h2
  rw [Nat.add_comm] at e2
  rw [e1] at e2
  exact Option.some.inj e2

/-! ## Traces -/

/-- One more read appends its event to the trace of a call behind the start request. -/
theorem traceAt_succ (w : World) (port : Int) (k : Nat) (hk : 1 ≤ k) :
    traceAt w port (k + 1) = traceAt w port k ++ [Event.prt_rd port (w.line k)] := by
  obtain ⟨n, rfl⟩ : ∃ n, k = n + 1 := ⟨k - 1, by omega⟩
  simp only [traceAt, Nat.add_sub_cancel, List.range'_concat, List.map_append, List.map_cons,
    List.map_nil, List.append_assoc, Nat.mul_one]
  rw [show 1 + 1 * n = n + 1 by omega]

/-- A read keeps the trace that of a call behind the start request. -/
theorem prt_rd_onTrace (w : World) (port : Int) (m : Mach)
    (h : m.tr = traceAt w port m.k ∧ 1 ≤ m.k) :
    (prt_rd w port m).2.tr = traceAt w port (prt_rd w port m).2.k
      ∧ 1 ≤ (prt_rd w port m).2.k := by
  simp only [prt_rd]
  rw [traceAt_succ w port m.k h.2, h.1]
  exact ⟨rfl, by omega⟩

/-- The machine behind the start request has made one read. -/
theorem startMach_onTrace (w : World) (port : Int) :
    (startMach w port).tr = traceAt w port (startMach w port).k
      ∧ 1 ≤ (startMach w port).k ∧ (startMach w port).k = 1
      ∧ (startMach w port).data = w.garbage := by
  simp [startMach, emit, prt_rd, traceAt]

/-- The trace of every way the flat loop can end: reads only, followed on the error
exit by the diagnostic and `munmap`. -/
theorem sample_trace (fuel : Nat) (w : World) (port : Int) (th : Nat) (n : Nat) :
    ∀ (j : Nat) (m : Mach) (f : Flow) (cs : List Nat),
      (m.tr = traceAt w port m.k ∧ 1 ≤ m.k) →
      sample fuel w port th n j m = some (f, cs) →
        (∀ m1, f = Flow.go m1 → m1.tr = traceAt w port m1.k ∧ m.k ≤ m1.k) ∧
        (∀ m1, f = Flow.ret m1 → ∃ k d b, m.k ≤ k ∧
          m1.tr = traceAt w port k ++ [Event.fprintf (Msg.bitTimeout d b), Event.munmap]) := by
  induction n with
  | zero =>
    intro j m f cs hm h
    simp only [sample, Option.some.injEq, Prod.mk.injEq] at h
    obtain ⟨rfl, _⟩ := h
    refine ⟨?_, ?_⟩
    · intro m1 h
      cases h
      exact ⟨hm.1, le_refl _⟩
    · intro m1 h
      cases h
  | succ n ih =>
    intro j m f cs hm h
    simp only [sample] at h
    cases hw : whileLow w port fuel m with
    | none => simp [hw] at h
    | some m1 =>
      rw [hw] at h
      simp only [] at h
      have t1 := whileLow_induct w port (fun x => (x.tr = traceAt w port x.k ∧ 1 ≤ x.k) ∧ m.k ≤ x.k)
        (fun x hx => ⟨prt_rd_onTrace w port x hx.1, by have := hx.2; simp only [prt_rd]; omega⟩)
        fuel m m1 ⟨hm, le_refl _⟩ hw
      cases hf : forWait w port true fuel 0 m1 with
      | none => simp [hf] at h
      | some r =>
        rw [hf] at h
        have t2 := forWait_induct w port true
          (fun x => (x.tr = traceAt w port x.k ∧ 1 ≤ x.k) ∧ m.k ≤ x.k)
          (fun x hx => ⟨prt_rd_onTrace w port x hx.1, by have := hx.2; simp only [prt_rd]; omega⟩)
          fuel 0 m1 r t1 hf
        cases r with
        | timeout m2 =>
          simp only [Option.some.injEq, Prod.mk.injEq] at h
          obtain ⟨rfl, _⟩ := h
          refine ⟨?_, ?_⟩
          · intro m3 h
            cases h
          · intro m3 h
            simp only [abort, Flow.ret.injEq] at h
            subst h
            refine ⟨m2.k, j / 8, j % 8, t2.2, ?_⟩
            simp only [emit, List.append_assoc, List.singleton_append]
            simp only [Wait.mach] at t2
            rw [t2.1.1]
        | done i m2 =>
          simp only [] at h
          cases hs : sample fuel w port th n (j + 1) (storeBit th (j / 8) i m2) with
          | none => simp [hs] at h
          | some q =>
            obtain ⟨f1, cs1⟩ := q
            rw [hs] at h
            simp only [Option.some.injEq, Prod.mk.injEq] at h
            obtain ⟨rfl, _⟩ := h
            have hk := storeBit_k_tr th (j / 8) i m2
            simp only [Wait.mach] at t2
            have := ih (j + 1) (storeBit th (j / 8) i m2) f1 cs1
              (by rw [hk.1, hk.2]; exact t2.1) hs
            rw [hk.1] at this
            refine ⟨?_, ?_⟩
            · intro m3 h3
              obtain ⟨a, b⟩ := this.1 m3 h3
              exact ⟨a, by omega⟩
            · intro m3 h3
              obtain ⟨k, d, b, hk1, hk2⟩ := this.2 m3 h3
              exact ⟨k, d, b, by omega, hk2⟩

/-- The trace of every way the handshake can end. -/
theorem handshake_trace (fuel : Nat) (w : World) (port : Int) (sh : Shake)
    (h : handshake fuel w port = some sh) :
    (∀ n m, sh = Shake.ready n m →
      w.line 0 = true ∧ m.tr = traceAt w port m.k ∧ 1 ≤ m.k ∧ m.data = w.garbage) ∧
    (∀ m, sh = Shake.ret m →
      (w.line 0 = false ∧ m.tr = busyTrace port) ∨
      (w.line 0 = true ∧ ∃ k msg, 1 ≤ k ∧
        m.tr = traceAt w port k ++ [Event.fprintf msg, Event.munmap])) := by
  have hP : ∀ x : Mach, (x.tr = traceAt w port x.k ∧ 1 ≤ x.k) ∧ x.data = w.garbage →
      ((prt_rd w port x).2.tr = traceAt w port (prt_rd w port x).2.k
        ∧ 1 ≤ (prt_rd w port x).2.k) ∧ (prt_rd w port x).2.data = w.garbage :=
    fun x hx => ⟨prt_rd_onTrace w port x hx.1, hx.2⟩
  have h0 := startMach_onTrace w port
  have hab : ∀ (msg : Msg) (x : Mach), (x.tr = traceAt w port x.k ∧ 1 ≤ x.k) →
      ∃ k msg1, 1 ≤ k ∧
        (abort msg x).mach.tr = traceAt w port k ++ [Event.fprintf msg1, Event.munmap] := by
    intro msg x hx
    refine ⟨x.k, msg, hx.2, ?_⟩
    simp only [abort, Flow.mach, emit, List.append_assoc, List.singleton_append]
    rw [hx.1]
  unfold handshake at h
  simp only at h
  split at h
  · rename_i hb
    cases h
    refine ⟨fun n m h => (by cases h), fun m h => ?_⟩
    cases h
    left
    simp only [prt_rd, emit] at hb
    refine ⟨hb, ?_⟩
    simp [abort, Flow.mach, emit, prt_rd, busyTrace, hb]
  · rename_i hb
    have hl : w.line 0 = true := by
      simp only [prt_rd, emit] at hb
      simpa using hb
    cases h1 : forWait w port true fuel 0 (startMach w port) with
    | none => simp [h1] at h
    | some r1 =>
      rw [h1] at h
      have t1 := forWait_induct w port true _ hP fuel 0 _ r1 ⟨⟨h0.1, h0.2.1⟩, h0.2.2.2⟩ h1
      cases r1 with
      | timeout m2 =>
        cases h
        refine ⟨fun n m h => (by cases h), fun m h => ?_⟩
        cases h
        exact Or.inr ⟨hl, hab _ m2 t1.1⟩
      | done i1 m2 =>
        simp only [] at h
        cases h2 : forWait w port false fuel 0 m2 with
        | none => simp [h2] at h
        | some r2 =>
          rw [h2] at h
          have t2 := forWait_induct w port false _ hP fuel 0 _ r2 t1 h2
          cases r2 with
          | timeout m3 =>
            cases h
            refine ⟨fun n m h => (by cases h), fun m h => ?_⟩
            cases h
            exact Or.inr ⟨hl, hab _ m3 t2.1⟩
          | done i2 m3 =>
            simp only [] at h
            cases h3 : forWait w port true fuel 0 m3 with
            | none => simp [h3] at h
            | some r3 =>
              rw [h3] at h
              have t3 := forWait_induct w port true _ hP fuel 0 _ r3 t2 h3
              cases r3 with
              | timeout m4 =>
                cases h
                refine ⟨fun n m h => (by cases h), fun m h => ?_⟩
                cases h
                exact Or.inr ⟨hl, hab _ m4 t3.1⟩
              | done i3 m4 =>
                cases h
                refine ⟨fun n m h => ?_, fun m h => by cases h⟩
                cases h
                exact ⟨hl, t3.1.1, t3.1.2, t3.2⟩

/-! ## The buffer -/

/-- Setting the low bit of an even byte adds one. -/
theorem or_one_of_even (y : Nat) (hy : y < 256) (he : y % 2 = 0) : y ||| 1 = y + 1 := by
  have h : ∀ z : Fin 256, z.val % 2 = 0 → z.val ||| 1 = z.val + 1 := by decide
  exact h ⟨y, hy⟩ he

/-- The byte lines 98-100 leave in `data[d]`: twice the old value plus the new bit,
reduced to 8 bits. -/
theorem shift_or (x i th : Nat) :
    (if i > th then ((x <<< 1) % 256) ||| 1 else (x <<< 1) % 256)
      = (2 * x + (if i > th then 1 else 0)) % 256 := by
  have hs : x <<< 1 = 2 * x := by
    rw [Nat.shiftLeft_eq]
    omega
  rw [hs]
  split
  · rw [or_one_of_even (2 * x % 256) (Nat.mod_lt _ (by decide)) (by omega)]
    omega
  · rfl

/-- What storing a bit does to the buffer, entry by entry. -/
theorem storeBit_getD (th d i : Nat) (m : Mach) (e : Nat) :
    (storeBit th d i m).data.length = m.data.length ∧
    (storeBit th d i m).data.getD e 0 =
      if e = d ∧ d < m.data.length
      then (2 * m.data.getD d 0 + (if i > th then 1 else 0)) % 256
      else m.data.getD e 0 := by
  have key := shift_or (m.data.getD d 0) i th
  unfold storeBit
  simp only
  by_cases hi : i > th
  · rw [if_pos hi] at key
    rw [if_pos hi]
    refine ⟨by simp, ?_⟩
    simp only [List.getD_eq_getElem?_getD, List.set_set, List.getElem?_set] at key ⊢
    by_cases hed : e = d
    · subst hed
      by_cases hl : e < m.data.length
      · simp only [hl, List.length_set, if_true, and_self, Option.getD_some] at key ⊢
        simp only [hi, if_true] at key ⊢
        exact key
      · simp [hl, List.getElem?_eq_none (Nat.le_of_not_lt hl)]
    · have : ¬ d = e := fun h => hed h.symm
      simp [hed, this]
  · rw [if_neg hi] at key
    rw [if_neg hi]
    refine ⟨by simp, ?_⟩
    simp only [List.getD_eq_getElem?_getD, List.getElem?_set] at key ⊢
    by_cases hed : e = d
    · subst hed
      by_cases hl : e < m.data.length
      · simp only [hl, if_true, and_self, Option.getD_some] at key ⊢
        simp only [hi, if_false] at key ⊢
        exact key
      · simp [hl, List.getElem?_eq_none (Nat.le_of_not_lt hl)]
    · have : ¬ d = e := fun h => hed h.symm
      simp [hed, this]

/-- The waits of one iteration keep the buffer. -/
theorem waits_data (fuel : Nat) (w : World) (port : Int) (m m1 : Mach) (r : Wait)
    (hw : whileLow w port fuel m = some m1) (hf : forWait w port true fuel 0 m1 = some r) :
    r.mach.data = m.data := by
  have h1 := whileLow_induct w port (fun x => x.data = m.data) (fun x hx => hx) fuel m m1 rfl hw
  exact forWait_induct w port true (fun x => x.data = m.data) (fun x hx => hx) fuel 0 m1 r h1 hf

/-- Every byte that was below 256 before the flat loop, and every byte all of whose
bits the loop has passed, is below 256 after it. -/
theorem sample_lt (fuel : Nat) (w : World) (port : Int) (th : Nat) (n : Nat) :
    ∀ (j : Nat) (m m1 : Mach) (cs : List Nat),
      sample fuel w port th n j m = some (Flow.go m1, cs) →
      ∀ e, (m.data.getD e 0 < 256 ∨ (j ≤ 8 * e + 7 ∧ 8 * e + 8 ≤ j + n)) →
        m1.data.getD e 0 < 256 := by
  induction n with
  | zero =>
    intro j m m1 cs h e he
    simp only [sample, Option.some.injEq, Prod.mk.injEq, Flow.go.injEq] at h
    obtain ⟨rfl, _⟩ := h
    rcases he with he | he
    · exact he
    · omega
  | succ n ih =>
    intro j m m1 cs h e he
    simp only [sample] at h
    cases hw : whileLow w port fuel m with
    | none => simp [hw] at h
    | some m2 =>
      rw [hw] at h
      simp only [] at h
      cases hf : forWait w port true fuel 0 m2 with
      | none => simp [hf] at h
      | some r =>
        rw [hf] at h
        have hd := waits_data fuel w port m m2 r hw hf
        cases r with
        | timeout m3 =>
          simp only [abort, Option.some.injEq, Prod.mk.injEq] at h
          exact absurd h.1 (by simp)
        | done i m3 =>
          simp only [] at h
          cases hs : sample fuel w port th n (j + 1) (storeBit th (j / 8) i m3) with
          | none => simp [hs] at h
          | some q =>
            obtain ⟨f1, cs1⟩ := q
            rw [hs] at h
            simp only [Option.some.injEq, Prod.mk.injEq] at h
            obtain ⟨rfl, _⟩ := h
            simp only [Wait.mach] at hd
            refine ih (j + 1) _ m1 cs1 hs e ?_
            have hg := (storeBit_getD th (j / 8) i m3 e).2
            by_cases hc : e = j / 8 ∧ j / 8 < m3.data.length
            · left
              rw [hg, if_pos hc]
              exact Nat.mod_lt _ (by decide)
            · rw [if_neg hc, hd] at hg
              rcases he with he | he
              · left
                rw [hg]
                exact he
              · by_cases hj : e = j / 8
                · left
                  rw [hg]
                  have hlen : ¬ j / 8 < m.data.length := by
                    intro hl
                    rw [← hd] at hl
                    exact hc ⟨hj, hl⟩
                  rw [List.getD_eq_default _ _ (by omega)]
                  decide
                · right
                  omega

/-- Eight bits shifted into a byte leave nothing of its start value. -/
theorem accum_eight (th : Nat) (cs : List Nat) (x : Nat) (h : cs.length = 8) :
    accum th cs x = ((List.range 8).map (fun k => bitAt th cs k * 2 ^ (7 - k))).sum := by
  match cs, h with
  | [c0, c1, c2, c3, c4, c5, c6, c7], _ =>
    simp only [accum, List.foldl, bitAt, List.range, List.range.loop, List.map, List.sum_cons,
      List.sum_nil, List.getD_cons_zero, List.getD_cons_succ]
    have hb : ∀ c : Nat, (if c > th then 1 else 0) ≤ 1 := fun c => by split <;> omega
    have h0 := hb c0
    have h1 := hb c1
    have h2 := hb c2
    have h3 := hb c3
    have h4 := hb c4
    have h5 := hb c5
    have h6 := hb c6
    have h7 := hb c7
    generalize (if c0 > th then 1 else 0) = b0 at h0 ⊢
    generalize (if c1 > th then 1 else 0) = b1 at h1 ⊢
    generalize (if c2 > th then 1 else 0) = b2 at h2 ⊢
    generalize (if c3 > th then 1 else 0) = b3 at h3 ⊢
    generalize (if c4 > th then 1 else 0) = b4 at h4 ⊢
    generalize (if c5 > th then 1 else 0) = b5 at h5 ⊢
    generalize (if c6 > th then 1 else 0) = b6 at h6 ⊢
    generalize (if c7 > th then 1 else 0) = b7 at h7 ⊢
    omega

/-- The flat loop over bits of one byte `d`: the other bytes keep their value, byte `d`
receives the bits in the order counted. -/
theorem sample_byte (fuel : Nat) (w : World) (port : Int) (th d : Nat) (n : Nat) :
    ∀ (j : Nat) (m m1 : Mach) (cs : List Nat), 8 * d ≤ j → j + n ≤ 8 * d + 8 →
      sample fuel w port th n j m = some (Flow.go m1, cs) →
        cs.length = n ∧ m1.data.length = m.data.length ∧
        (∀ e, e ≠ d → m1.data.getD e 0 = m.data.getD e 0) ∧
        (d < m.data.length → m1.data.getD d 0 = accum th cs (m.data.getD d 0)) := by
  induction n with
  | zero =>
    intro j m m1 cs _ _ h
    simp only [sample, Option.some.injEq, Prod.mk.injEq, Flow.go.injEq] at h
    obtain ⟨rfl, rfl⟩ := h
    exact ⟨rfl, rfl, fun e _ => rfl, fun _ => rfl⟩
  | succ n ih =>
    intro j m m1 cs hj1 hj2 h
    have hjd : j / 8 = d := by omega
    simp only [sample] at h
    cases hw : whileLow w port fuel m with
    | none => simp [hw] at h
    | some m2 =>
      rw [hw] at h
      simp only [] at h
      cases hf : forWait w port true fuel 0 m2 with
      | none => simp [hf] at h
      | some r =>
        rw [hf] at h
        have hd := waits_data fuel w port m m2 r hw hf
        cases r with
        | timeout m3 =>
          simp only [abort, Option.some.injEq, Prod.mk.injEq] at h
          exact absurd h.1 (by simp)
        | done i m3 =>
          simp only [] at h
          cases hs : sample fuel w port th n (j + 1) (storeBit th (j / 8) i m3) with
          | none => simp [hs] at h
          | some q =>
            obtain ⟨f1, cs1⟩ := q
            rw [hs] at h
            simp only [Option.some.injEq, Prod.mk.injEq] at h
            obtain ⟨rfl, rfl⟩ := h
            simp only [Wait.mach] at hd
            rw [hjd] at hs
            obtain ⟨a1, a2, a3, a4⟩ := ih (j + 1) _ m1 cs1 (by omega) (by omega) hs
            have hlen := (storeBit_getD th d i m3 0).1
            rw [hd] at hlen
            refine ⟨by simp [a1], by rw [a2, hlen], ?_, ?_⟩
            · intro e he
              rw [a3 e he, (storeBit_getD th d i m3 e).2, if_neg (fun hc => he hc.1), hd]
            · intro hl
              rw [a4 (by rw [hlen]; exact hl), (storeBit_getD th d i m3 d).2,
                if_pos ⟨rfl, by rw [hd]; exact hl⟩, hd]
              rfl

/-- The flat loop over whole bytes: `cnt` bytes from byte `d` on receive eight bits
each, the other bytes keep their value. -/
theorem sample_bytes (fuel : Nat) (w : World) (port : Int) (th : Nat) (cnt : Nat) :
    ∀ (d : Nat) (m m1 : Mach) (cs : List Nat), d + cnt ≤ m.data.length →
      sample fuel w port th (8 * cnt) (8 * d) m = some (Flow.go m1, cs) →
        cs.length = 8 * cnt ∧ m1.data.length = m.data.length ∧
        (∀ e, e < d ∨ d + cnt ≤ e → m1.data.getD e 0 = m.data.getD e 0) ∧
        (∀ e, d ≤ e → e < d + cnt →
          m1.data.getD e 0 = ((List.range 8).map
            (fun k => bitAt th cs (8 * (e - d) + k) * 2 ^ (7 - k))).sum) := by
  induction cnt with
  | zero =>
    intro d m m1 cs _ h
    simp only [Nat.mul_zero, sample, Option.some.injEq, Prod.mk.injEq, Flow.go.injEq] at h
    obtain ⟨rfl, rfl⟩ := h
    exact ⟨rfl, rfl, fun e _ => rfl, fun e h1 h2 => by omega⟩
  | succ n ih =>
    intro d m m1 cs hlen h
    rw [show 8 * (n + 1) = 8 + 8 * n by omega, sample_add] at h
    cases hs : sample fuel w port th 8 (8 * d) m with
    | none => simp [hs] at h
    | some p =>
      obtain ⟨f, cs1⟩ := p
      rw [hs] at h
      cases f with
      | ret x => simp at h
      | go x =>
        simp only [] at h
        cases hs2 : sample fuel w port th (8 * n) (8 * d + 8) x with
        | none => simp [hs2] at h
        | some q =>
          obtain ⟨f2, cs2⟩ := q
          rw [hs2] at h
          simp only [Option.some.injEq, Prod.mk.injEq] at h
          obtain ⟨rfl, rfl⟩ := h
          obtain ⟨a1, a2, a3, a4⟩ :=
            sample_byte fuel w port th d 8 (8 * d) m x cs1 (le_refl _) (le_refl _) hs
          rw [show 8 * d + 8 = 8 * (d + 1) by omega] at hs2
          obtain ⟨b1, b2, b3, b4⟩ := ih (d + 1) x m1 cs2 (by rw [a2]; omega) hs2
          refine ⟨by rw [List.length_append, a1, b1]; omega, by rw [b2, a2], ?_, ?_⟩
          · intro e he
            rw [b3 e (by omega), a3 e (by omega)]
          · intro e he1 he2
            rcases Nat.eq_or_lt_of_le he1 with hde | hde
            · subst hde
              rw [b3 d (by omega), a4 (by omega), accum_eight th cs1 _ a1]
              simp only [Nat.sub_self, Nat.mul_zero, Nat.zero_add]
              refine congrArg List.sum (List.map_congr_left ?_)
              intro k hk
              have hk8 : k < 8 := List.mem_range.mp hk
              simp only [bitAt]
              rw [List.getD_append _ _ _ _ (by omega)]
            · rw [b4 e (by omega) (by omega)]
              refine congrArg List.sum (List.map_congr_left ?_)
              intro k hk
              simp only [bitAt]
              rw [List.getD_append_right _ _ _ _ (by omega), a1,
                show 8 * (e - d) + k - 8 = 8 * (e - (d + 1)) + k by omega]

/-- The frame of a complete sampling loop on a 5-byte buffer: 40 widths were counted
and byte `d` holds the sum over k = 0..7 of bit(8d+k) * 2^(7-k). -/
theorem sample_frame (fuel : Nat) (w : World) (port : Int) (th : Nat) (m m1 : Mach)
    (cs : List Nat) (hlen : m.data.length = 5)
    (h : sample fuel w port th 40 0 m = some (Flow.go m1, cs)) :
    cs.length = 40 ∧ m1.data.length = 5 ∧ ∀ d, d < 5 → m1.data.getD d 0 = packed th cs d := by
  obtain ⟨a1, a2, _, a4⟩ := sample_bytes fuel w port th 5 0 m m1 cs (by omega) h
  refine ⟨a1, by rw [a2, hlen], ?_⟩
  intro d hd
  rw [a4 d (by omega) (by omega)]
  rfl

/-! ## Independence of the buffer -/

/-- A bounded wait does not look at the buffer: on the same line, from machines with
the same read counter and trace, it ends the same way. -/
theorem forWait_sim (w1 w2 : World) (hline : w1.line = w2.line) (port : Int) (lvl : Bool)
    (fuel : Nat) :
    ∀ (i : Nat) (a b : Mach), a.k = b.k → a.tr = b.tr →
      match forWait w1 port lvl fuel i a, forWait w2 port lvl fuel i b with
      | some (Wait.done j1 a1), some (Wait.done j2 b1) =>
        j1 = j2 ∧ a1.k = b1.k ∧ a1.tr = b1.tr ∧ a1.data = a.data ∧ b1.data = b.data
      | some (Wait.timeout a1), some (Wait.timeout b1) => a1.k = b1.k ∧ a1.tr = b1.tr
      | none, none => True
      | _, _ => False := by
  induction fuel with
  | zero =>
    intro i a b _ _
    simp [forWait]
  | succ n ih =>
    intro i a b hk ht
    simp only [forWait, prt_rd]
    rw [← hline, ← hk, ← ht]
    by_cases hl : w1.line a.k = lvl
    · simp only [hl, if_true]
      by_cases hi : i > TIMEOUT
      · simp [hi]
      · simp only [hi, if_false]
        have := ih (i + 1) { a with k := a.k + 1, tr := a.tr ++ [Event.prt_rd port lvl] }
          { b with k := a.k + 1, tr := a.tr ++ [Event.prt_rd port lvl] } rfl rfl
        exact this
    · simp [hl]

/-- The rising-edge wait does not look at the buffer. -/
theorem whileLow_sim (w1 w2 : World) (hline : w1.line = w2.line) (port : Int) (fuel : Nat) :
    ∀ (a b : Mach), a.k = b.k → a.tr = b.tr →
      match whileLow w1 port fuel a, whileLow w2 port fuel b with
      | some a1, some b1 => a1.k = b1.k ∧ a1.tr = b1.tr ∧ a1.data = a.data ∧ b1.data = b.data
      | none, none => True
      | _, _ => False := by
  induction fuel with
  | zero =>
    intro a b _ _
    simp [whileLow]
  | succ n ih =>
    intro a b hk ht
    simp only [whileLow, prt_rd]
    rw [← hline, ← hk, ← ht]
    by_cases hl : w1.line a.k = false
    · simp only [hl, if_true]
      exact ih { a with k := a.k + 1, tr := a.tr ++ [Event.prt_rd port false] }
        { b with k := a.k + 1, tr := a.tr ++ [Event.prt_rd port false] } rfl rfl
    · simp [hl]

/-- The flat loop counts the same widths and ends the same way whatever the buffer
holds. -/
theorem sample_sim (w1 w2 : World) (hline : w1.line = w2.line) (fuel : Nat) (port : Int)
    (th : Nat) (n : Nat) :
    ∀ (j : Nat) (a b : Mach), a.k = b.k → a.tr = b.tr →
      match sample fuel w1 port th n j a, sample fuel w2 port th n j b with
      | some (Flow.go a1, cs1), some (Flow.go b1, cs2) =>
        cs1 = cs2 ∧ a1.k = b1.k ∧ a1.tr = b1.tr
      | some (Flow.ret a1, cs1), some (Flow.ret b1, cs2) =>
        cs1 = cs2 ∧ a1.k = b1.k ∧ a1.tr = b1.tr
      | none, none => True
      | _, _ => False := by
  induction n with
  | zero =>
    intro j a b hk ht
    simp only [sample]
    exact ⟨trivial, hk, ht⟩
  | succ n ih =>
    intro j a b hk ht
    simp only [sample]
    have hw := whileLow_sim w1 w2 hline port fuel a b hk ht
    cases hwa : whileLow w1 port fuel a with
    | none =>
      cases hwb : whileLow w2 port fuel b with
      | none => trivial
      | some b1 => simp [hwa, hwb] at hw
    | some a1 =>
      cases hwb : whileLow w2 port fuel b with
      | none => simp [hwa, hwb] at hw
      | some b1 =>
        simp only [hwa, hwb] at hw
        simp only []
        have hf := forWait_sim w1 w2 hline port true fuel 0 a1 b1 hw.1 hw.2.1
        cases hfa : forWait w1 port true fuel 0 a1 with
        | none =>
          cases hfb : forWait w2 port true fuel 0 b1 with
          | none => trivial
          | some rb => cases rb <;> simp [hfa, hfb] at hf
        | some ra =>
          cases hfb : forWait w2 port true fuel 0 b1 with
          | none => cases ra <;> simp [hfa, hfb] at hf
          | some rb =>
            cases ra with
            | timeout a2 =>
              cases rb with
              | done j2 b2 => simp [hfa, hfb] at hf
              | timeout b2 =>
                simp only [hfa, hfb] at hf
                simp only [abort, emit]
                exact ⟨trivial, hf.1, by rw [hf.2]⟩
            | done j1 a2 =>
              cases rb with
              | timeout b2 => simp [hfa, hfb] at hf
              | done j2 b2 =>
                simp only [hfa, hfb] at hf
                obtain ⟨rfl, h1, h2, _, _⟩ := hf
                simp only []
                have ka := storeBit_k_tr th (j / 8) j1 a2
                have kb := storeBit_k_tr th (j / 8) j1 b2
                have := ih (j + 1) (storeBit th (j / 8) j1 a2) (storeBit th (j / 8) j1 b2)
                  (by rw [ka.1, kb.1, h1]) (by rw [ka.2, kb.2, h2])
                cases hsa : sample fuel w1 port th n (j + 1) (storeBit th (j / 8) j1 a2) with
                | none =>
                  cases hsb : sample fuel w2 port th n (j + 1) (storeBit th (j / 8) j1 b2) with
                  | none => trivial
                  | some q => obtain ⟨f, cs⟩ := q; cases f <;> simp [hsa, hsb] at this
                | some p =>
                  obtain ⟨fa, csa⟩ := p
                  cases hsb : sample fuel w2 port th n (j + 1) (storeBit th (j / 8) j1 b2) with
                  | none => cases fa <;> simp [hsa, hsb] at this
                  | some q =>
                    obtain ⟨fb, csb⟩ := q
                    cases fa <;> cases fb <;> simp [hsa, hsb] at this ⊢
                    · exact this
                    · exact this

/-- The handshake ends the same way, with the same calibration count, whatever the
buffer holds. -/
theorem handshake_sim (w1 w2 : World) (hline : w1.line = w2.line) (fuel : Nat) (port : Int) :
    match handshake fuel w1 port, handshake fuel w2 port with
    | some (Shake.ready n1 a), some (Shake.ready n2 b) => n1 = n2 ∧ a.k = b.k ∧ a.tr = b.tr
    | some (Shake.ret a), some (Shake.ret b) => a.tr = b.tr
    | none, none => True
    | _, _ => False := by
  have hs : (startMach w1 port).k = (startMach w2 port).k
      ∧ (startMach w1 port).tr = (startMach w2 port).tr := by
    simp [startMach, emit, prt_rd, hline]
  unfold handshake
  simp only [prt_rd, emit]
  rw [← hline]
  by_cases hb : w1.line 0 = false
  · simp only [hb, if_true]
    simp [abort, Flow.mach, emit]
  · simp only [hb, if_false]
    have h1 := forWait_sim w1 w2 hline port true fuel 0 _ _ hs.1 hs.2
    cases h1a : forWait w1 port true fuel 0 (startMach w1 port) with
    | none =>
      cases h1b : forWait w2 port true fuel 0 (startMach w2 port) with
      | none => trivial
      | some rb => cases rb <;> simp [h1a, h1b] at h1
    | some ra =>
      cases h1b : forWait w2 port true fuel 0 (startMach w2 port) with
      | none => cases ra <;> simp [h1a, h1b] at h1
      | some rb =>
        cases ra with
        | timeout a2 =>
          cases rb with
          | done j2 b2 => simp [h1a, h1b] at h1
          | timeout b2 =>
            simp only [h1a, h1b] at h1
            simp [abort, Flow.mach, emit, h1.2]
        | done j1 a2 =>
          cases rb with
          | timeout b2 => simp [h1a, h1b] at h1
          | done j2 b2 =>
            simp only [h1a, h1b] at h1
            simp only []
            have h2 := forWait_sim w1 w2 hline port false fuel 0 a2 b2 h1.2.1 h1.2.2.1
            cases h2a : forWait w1 port false fuel 0 a2 with
            | none =>
              cases h2b : forWait w2 port false fuel 0 b2 with
              | none => trivial
              | some rb => cases rb <;> simp [h2a, h2b] at h2
            | some ra =>
              cases h2b : forWait w2 port false fuel 0 b2 with
              | none => cases ra <;> simp [h2a, h2b] at h2
              | some rb =>
                cases ra with
                | timeout a3 =>
                  cases rb with
                  | done j2 b3 => simp [h2a, h2b] at h2
                  | timeout b3 =>
                    simp only [h2a, h2b] at h2
                    simp [abort, Flow.mach, emit, h2.2]
                | done n1 a3 =>
                  cases rb with
                  | timeout b3 => simp [h2a, h2b] at h2
                  | done n2 b3 =>
                    simp only [h2a, h2b] at h2
                    simp only []
                    have h3 := forWait_sim w1 w2 hline port true fuel 0 a3 b3 h2.2.1 h2.2.2.1
                    cases h3a : forWait w1 port true fuel 0 a3 with
                    | none =>
                      cases h3b : forWait w2 port true fuel 0 b3 with
                      | none => trivial
                      | some rb => cases rb <;> simp [h3a, h3b] at h3
                    | some ra =>
                      cases h3b : forWait w2 port true fuel 0 b3 with
                      | none => cases ra <;> simp [h3a, h3b] at h3
                      | some rb =>
                        cases ra with
                        | timeout a4 =>
                          cases rb with
                          | done j2 b4 => simp [h3a, h3b] at h3
                          | timeout b4 =>
                            simp only [h3a, h3b] at h3
                            simp [abort, Flow.mach, emit, h3.2]
                        | done j1 a4 =>
                          cases rb with
                          | timeout b4 => simp [h3a, h3b] at h3
                          | done j2 b4 =>
                            simp only [h3a, h3b] at h3
                            exact ⟨h2.1, h3.2.1, h3.2.2.1⟩

/-- The validation stage returns 0 or -1; when it returns 0 it has written the same
reading to the outputs and to the statics, and the reading is that of lines 111-114. -/
theorem validate_cases (data : List Nat) (s : Statics) (hum tmp : Int) (tr : List Event) :
    ((validate data s hum tmp tr).ret = -1 ∧
        (validate data s hum tmp tr).tr = tr ++ [Event.fprintf Msg.checksumUnmuch]) ∨
    ((validate data s hum tmp tr).ret = 0 ∧ (validate data s hum tmp tr).tr = tr ∧
      (validate data s hum tmp tr).st =
        { last := s.last, h := (validate data s hum tmp tr).hum,
          t := (validate data s hum tmp tr).tmp } ∧
      (validate data s hum tmp tr).hum = (data.getD 0 0 : Int) * 256 + (data.getD 1 0 : Int) ∧
      ((validate data s hum tmp tr).tmp
          = ((data.getD 2 0 &&& 0x7f : Nat) : Int) * 256 + (data.getD 3 0 : Int) ∨
        (validate data s hum tmp tr).tmp
          = -(((data.getD 2 0 &&& 0x7f : Nat) : Int) * 256 + (data.getD 3 0 : Int)))) := by
  unfold validate
  simp only
  split
  · left
    exact ⟨rfl, rfl⟩
  · right
    refine ⟨rfl, rfl, rfl, rfl, ?_⟩
    split
    · right
      simp
    · left
      rfl

/-- The trace of a call that is a hardware attempt with the register map available,
and its return value: bus busy, one of the timeouts, success, or checksum mismatch. -/
theorem rht03_trace (fuel : Nat) (w : World) (port : Int) (s : Statics) (hum tmp : Int)
    (r : Result) (hint : ¬ interval w.now s.last < 2000000) (hmap : w.mapOk = true)
    (h : rht03 fuel w port s hum tmp = some r) :
    (w.line 0 = false ∧ r.ret = -1 ∧ r.tr = busyTrace port) ∨
    (w.line 0 = true ∧ ∃ k, 1 ≤ k ∧
      ((r.ret = -1 ∧ ∃ msg, r.tr = traceAt w port k ++ [Event.fprintf msg, Event.munmap]) ∨
       (r.ret = 0 ∧ r.tr = traceAt w port k ++ [Event.munmap]) ∨
       (r.ret = -1 ∧ r.tr = traceAt w port k
          ++ [Event.munmap, Event.fprintf Msg.checksumUnmuch]))) := by
  unfold rht03 at h
  rw [if_neg hint, attempt_eq fuel w port s hum tmp hmap] at h
  cases hh : handshake fuel w port with
  | none => simp [hh] at h
  | some sh =>
    rw [hh] at h
    have ht := handshake_trace fuel w port sh hh
    cases sh with
    | ret m =>
      simp only [Option.some.injEq] at h
      subst h
      rcases ht.2 m rfl with ⟨h0, h1⟩ | ⟨h0, k, msg, hk, h1⟩
      · exact Or.inl ⟨h0, rfl, h1⟩
      · exact Or.inr ⟨h0, k, hk, Or.inl ⟨rfl, msg, h1⟩⟩
    | ready n m =>
      obtain ⟨h0, h1, h2, _⟩ := ht.1 n m rfl
      simp only [] at h
      cases hs : sample fuel w port (n * 50 / 80) 40 0 m with
      | none => simp [hs] at h
      | some p =>
        obtain ⟨f, cs⟩ := p
        rw [hs] at h
        have st := sample_trace fuel w port (n * 50 / 80) 40 0 m f cs ⟨h1, h2⟩ hs
        right
        cases f with
        | ret m5 =>
          simp only [Option.some.injEq] at h
          subst h
          obtain ⟨k, d, b, hk, hk2⟩ := st.2 m5 rfl
          exact ⟨h0, k, by omega, Or.inl ⟨rfl, _, hk2⟩⟩
        | go m5 =>
          simp only [Option.some.injEq] at h
          subst h
          obtain ⟨a1, a2⟩ := st.1 m5 rfl
          refine ⟨h0, m5.k, by omega, Or.inr ?_⟩
          rcases validate_cases m5.data { s with last := w.now } hum tmp
            (m5.tr ++ [Event.munmap]) with ⟨v1, v2⟩ | ⟨v1, v2, _⟩
          · right
            refine ⟨v1, ?_⟩
            rw [v2, a1]
            simp
          · left
            refine ⟨v1, ?_⟩
            rw [v2, a1]

/-- No `munmap` is recorded before the error exit or line 103. -/
theorem traceAt_count_munmap (w : World) (port : Int) (k : Nat) :
    (traceAt w port k).count Event.munmap = 0 := by
  rw [List.count_eq_zero]
  simp [traceAt]

/-- The line operations of a call behind the start request. -/
theorem traceAt_drives (w : World) (port : Int) (k : Nat) :
    (traceAt w port k).filter Event.drives =
      [Event.fnc_wr port Fnc.FNC_IN, Event.fnc_wr port Fnc.FNC_OUT, Event.prt_wr port 0,
       Event.fnc_wr port Fnc.FNC_IN] := by
  have h : ((List.range' 1 (k - 1)).map (fun t => Event.prt_rd port (w.line t))).filter
      Event.drives = [] := by
    rw [List.filter_eq_nil_iff]
    intro e he
    rw [List.mem_map] at he
    obtain ⟨t, _, rfl⟩ := he
    simp [Event.drives]
  simp only [traceAt, List.filter_append, h, List.append_nil]
  rfl

/-- The check of the line discipline only looks at the `fnc_wr` and `prt_wr` events. -/
theorem driveCheck_filter (tr : List Event) :
    ∀ (dir : Option Fnc) (n : Nat),
      driveCheck dir n tr = driveCheck dir n (tr.filter Event.drives) := by
  induction tr with
  | nil =>
    intro dir n
    rfl
  | cons e es ih =>
    intro dir n
    cases e with
    | fnc_wr p f =>
      simp only [List.filter, Event.drives, driveCheck]
      exact ih _ _
    | prt_wr p v =>
      simp only [List.filter, Event.drives, driveCheck]
      split
      · exact ih _ _
      · rfl
    | regs_map => simp only [List.filter, Event.drives, driveCheck]; exact ih _ _
    | prt_rd p l => simp only [List.filter, Event.drives, driveCheck]; exact ih _ _
    | usleep u => simp only [List.filter, Event.drives, driveCheck]; exact ih _ _
    | fprintf msg => simp only [List.filter, Event.drives, driveCheck]; exact ih _ _
    | munmap => simp only [List.filter, Event.drives, driveCheck]; exact ih _ _

/-! ## Bus discipline, cache and ranges -/

/-- A hardware attempt that returns 0 has stored the time of the call and the reading
it wrote to the outputs. -/
theorem attempt_ok (fuel : Nat) (w : World) (port : Int) (s : Statics) (hum tmp : Int)
    (r : Result) (h : attempt fuel w port s hum tmp = some r) (hok : r.ret = 0) :
    r.st = { last := w.now, h := r.hum, t := r.tmp } := by
  unfold attempt at h
  simp only at h
  split at h
  · cases h
    simp at hok
  · split at h
    · cases h
    · cases h
      simp at hok
    · rename_i m hacq
      cases h
      rcases validate_cases m.data { s with last := w.now } hum tmp m.tr with
        ⟨v1, _⟩ | ⟨_, _, v3, _⟩
      · rw [v1] at hok
        simp at hok
      · exact v3

/-- C13: a hardware attempt whose first read finds the line low returns -1 after the
bus-busy diagnostic; its trace is `regs_map`, the switch to input, the read, the
diagnostic and `munmap`: the line is never switched to output, no level is written,
and the register map is released last. -/
theorem bus_busy_returns (fuel : Nat) (w : World) (port : Int) (s : Statics) (hum tmp : Int)
    (hint : ¬ interval w.now s.last < 2000000) (hmap : w.mapOk = true)
    (hlow : w.line 0 = false) :
    ∃ r, rht03 fuel w port s hum tmp = some r ∧ r.ret = -1 ∧ r.hum = hum ∧ r.tmp = tmp ∧
      r.tr = [Event.regs_map, Event.fnc_wr port Fnc.FNC_IN, Event.prt_rd port false,
        Event.fprintf Msg.busBusy, Event.munmap] ∧
      (∀ p, Event.fnc_wr p Fnc.FNC_OUT ∉ r.tr) ∧ (∀ p v, Event.prt_wr p v ∉ r.tr) ∧
      r.tr.getLast? = some Event.munmap := by
  refine ⟨{ ret := -1, hum := hum, tmp := tmp, st := { s with last := w.now },
            tr := busyTrace port }, ?_, rfl, rfl, rfl, rfl, ?_, ?_, rfl⟩
  · unfold rht03
    rw [if_neg hint]
    unfold attempt acquire
    simp [hmap, prt_rd, emit, hlow, abort, busyTrace]
  · intro p
    simp [busyTrace]
  · intro p v
    simp [busyTrace]

/-- C16: a call that is answered from the cache or fails at `regs_map` records no
`munmap`; a call that gets the register map records exactly one, after `regs_map` and
all bus operations, followed by nothing or by the checksum diagnostic only. -/
theorem munmap_once (fuel : Nat) (w : World) (port : Int) (s : Statics) (hum tmp : Int)
    (r : Result) (h : rht03 fuel w port s hum tmp = some r) :
    ((interval w.now s.last < 2000000 ∨ w.mapOk = false) →
        r.tr.count Event.munmap = 0) ∧
    (¬ interval w.now s.last < 2000000 → w.mapOk = true →
        r.tr.count Event.munmap = 1 ∧
        ∃ pre post, r.tr = Event.regs_map :: pre ++ Event.munmap :: post ∧
          Event.munmap ∉ pre ∧
          (post = [] ∨ post = [Event.fprintf Msg.checksumUnmuch])) := by
  constructor
  · intro hc
    unfold rht03 at h
    split at h
    · cases h
      rfl
    · rename_i hint
      rcases hc with hc | hc
      · exact absurd hc hint
      · unfold attempt at h
        simp only [hc, if_true] at h
        cases h
        rfl
  · intro hint hmap
    have hcount := traceAt_count_munmap w port
    have hsplit : ∀ k, ∃ pre, traceAt w port k = Event.regs_map :: pre ∧ Event.munmap ∉ pre := by
      intro k
      refine ⟨_, rfl, ?_⟩
      have := hcount k
      rw [List.count_eq_zero] at this
      intro hm
      exact this (List.mem_cons_of_mem _ hm)
    rcases rht03_trace fuel w port s hum tmp r hint hmap h with
      ⟨_, _, ht⟩ | ⟨_, k, _, ⟨_, msg, ht⟩ | ⟨_, ht⟩ | ⟨_, ht⟩⟩
    · rw [ht]
      refine ⟨by simp [busyTrace, List.count_cons], [Event.fnc_wr port Fnc.FNC_IN, Event.prt_rd port false,
        Event.fprintf Msg.busBusy], [], rfl, by simp, Or.inl rfl⟩
    · obtain ⟨pre, hp, hn⟩ := hsplit k
      rw [ht]
      refine ⟨?_, pre ++ [Event.fprintf msg], [], ?_, ?_, Or.inl rfl⟩
      · rw [List.count_append, hcount]
        simp [List.count_cons]
      · rw [hp]
        simp
      · simp [hn]
    · obtain ⟨pre, hp, hn⟩ := hsplit k
      rw [ht]
      refine ⟨?_, pre, [], ?_, hn, Or.inl rfl⟩
      · rw [List.count_append, hcount]
        simp
      · rw [hp]
    · obtain ⟨pre, hp, hn⟩ := hsplit k
      rw [ht]
      refine ⟨?_, pre, [Event.fprintf Msg.checksumUnmuch], ?_, hn, Or.inr rfl⟩
      · rw [List.count_append, hcount]
        simp [List.count_cons]
      · rw [hp]

/-- C17: the `fnc_wr` and `prt_wr` events of a call are, in order, none at all, or the
switch to input alone, or input - output - write of level 0 - input. Hence the check
of the line discipline passes: a level is written only while the direction is OUTPUT,
only level 0 is written, at most once, and a call that touched the line leaves it
configured as input. The check also passes, with one write and the direction input, on
the trace a call has after any number of reads behind the start request, returned or
not. -/
theorem line_discipline (fuel : Nat) (w : World) (port : Int) (s : Statics) (hum tmp : Int)
    (r : Result) (h : rht03 fuel w port s hum tmp = some r) :
    (r.tr.filter Event.drives = [] ∨
      r.tr.filter Event.drives = [Event.fnc_wr port Fnc.FNC_IN] ∨
      r.tr.filter Event.drives =
        [Event.fnc_wr port Fnc.FNC_IN, Event.fnc_wr port Fnc.FNC_OUT, Event.prt_wr port 0,
         Event.fnc_wr port Fnc.FNC_IN]) ∧
    (∃ dir n, driveCheck none 0 r.tr = some (dir, n) ∧ n ≤ 1 ∧
      (r.tr.filter Event.drives ≠ [] → dir = some Fnc.FNC_IN)) ∧
    ∀ k, driveCheck none 0 (traceAt w port k) = some (some Fnc.FNC_IN, 1) := by
  have hall : ∀ k, driveCheck none 0 (traceAt w port k) = some (some Fnc.FNC_IN, 1) := by
    intro k
    rw [driveCheck_filter, traceAt_drives]
    simp [driveCheck]
  have key : r.tr.filter Event.drives = [] ∨
      r.tr.filter Event.drives = [Event.fnc_wr port Fnc.FNC_IN] ∨
      r.tr.filter Event.drives =
        [Event.fnc_wr port Fnc.FNC_IN, Event.fnc_wr port Fnc.FNC_OUT, Event.prt_wr port 0,
         Event.fnc_wr port Fnc.FNC_IN] := by
    by_cases hint : interval w.now s.last < 2000000
    · unfold rht03 at h
      rw [if_pos hint] at h
      cases h
      exact Or.inl rfl
    · cases hmap : w.mapOk with
      | false =>
        unfold rht03 at h
        rw [if_neg hint] at h
        unfold attempt at h
        simp only [hmap, if_true] at h
        cases h
        exact Or.inl rfl
      | true =>
        have hd := traceAt_drives w port
        rcases rht03_trace fuel w port s hum tmp r hint hmap h with
          ⟨_, _, ht⟩ | ⟨_, k, _, ⟨_, msg, ht⟩ | ⟨_, ht⟩ | ⟨_, ht⟩⟩
        · rw [ht]
          exact Or.inr (Or.inl rfl)
        · rw [ht, List.filter_append, hd]
          exact Or.inr (Or.inr rfl)
        · rw [ht, List.filter_append, hd]
          exact Or.inr (Or.inr rfl)
        · rw [ht, List.filter_append, hd]
          exact Or.inr (Or.inr rfl)
  refine ⟨key, ?_, hall⟩
  rw [driveCheck_filter]
  rcases key with hk | hk | hk
  · rw [hk]
    exact ⟨none, 0, rfl, by omega, fun hne => absurd rfl hne⟩
  · rw [hk]
    exact ⟨some Fnc.FNC_IN, 0, rfl, by omega, fun _ => rfl⟩
  · rw [hk]
    exact ⟨some Fnc.FNC_IN, 1, by simp [driveCheck], by omega, fun _ => rfl⟩

/-- C19: after a successful hardware read (for port A), every call whose computed
interval is below 2000000 returns 0 with the reading of that read and an empty trace,
whatever its port argument, its bus, the availability of the register map and the
contents of the output variables: two such calls made at the same clock value return
the same. In general, with any statics, a call whose computed interval is below
2000000 returns 0 with the stored h and t and an empty trace, and so does every call
made at the same clock value for any port and bus. -/
theorem cache_not_keyed (f1 : Nat) (w1 : World) (portA : Int) (s : Statics) (hum tmp : Int)
    (r1 : Result) (f2 : Nat) (w2 : World) (portB : Int) (hum2 tmp2 : Int)
    (h1 : rht03 f1 w1 portA s hum tmp = some r1)
    (hatt : ¬ interval w1.now s.last < 2000000) (hok : r1.ret = 0)
    (hwin : interval w2.now w1.now < 2000000) :
    rht03 f2 w2 portB r1.st hum2 tmp2 =
        some { ret := 0, hum := r1.hum, tmp := r1.tmp, st := r1.st, tr := [] } ∧
    (∀ (f3 : Nat) (w3 : World) (portC : Int) (hum3 tmp3 : Int), w3.now = w2.now →
      rht03 f3 w3 portC r1.st hum3 tmp3 = rht03 f2 w2 portB r1.st hum2 tmp2) ∧
    ∀ (s0 : Statics) (fa : Nat) (wa : World) (pa : Int) (ha ta : Int) (fb : Nat)
      (wb : World) (pb : Int) (hb tb : Int),
      interval wa.now s0.last < 2000000 → wb.now = wa.now →
        rht03 fa wa pa s0 ha ta
          = some { ret := 0, hum := s0.h, tmp := s0.t, st := s0, tr := [] } ∧
        rht03 fb wb pb s0 hb tb = rht03 fa wa pa s0 ha ta := by
  have hgen : ∀ (s0 : Statics) (fa : Nat) (wa : World) (pa : Int) (ha ta : Int) (fb : Nat)
      (wb : World) (pb : Int) (hb tb : Int),
      interval wa.now s0.last < 2000000 → wb.now = wa.now →
        rht03 fa wa pa s0 ha ta
          = some { ret := 0, hum := s0.h, tmp := s0.t, st := s0, tr := [] } ∧
        rht03 fb wb pb s0 hb tb = rht03 fa wa pa s0 ha ta := by
    intro s0 fa wa pa ha ta fb wb pb hb tb hc hn
    simp only [rht03, hn, hc, if_true, and_self]
  unfold rht03 at h1
  rw [if_neg hatt] at h1
  have hst := attempt_ok f1 w1 portA s hum tmp r1 h1 hok
  have hc : interval w2.now r1.st.last < 2000000 := by
    rw [hst]
    exact hwin
  have e2 : rht03 f2 w2 portB r1.st hum2 tmp2 =
      some { ret := 0, hum := r1.hum, tmp := r1.tmp, st := r1.st, tr := [] } := by
    unfold rht03
    rw [if_pos hc, hst]
  refine ⟨e2, ?_, hgen⟩
  intro f3 w3 portC hum3 tmp3 hn
  rw [e2]
  unfold rht03
  rw [hn, if_pos hc, hst]

/-- C20: a call that is a hardware attempt and returns 0 has written a humidity of
0..65535 and a temperature of -32767..32767. -/
theorem reading_ranges (fuel : Nat) (w : World) (port : Int) (s : Statics) (hum tmp : Int)
    (r : Result) (h : rht03 fuel w port s hum tmp = some r)
    (hatt : ¬ interval w.now s.last < 2000000) (hok : r.ret = 0) :
    0 ≤ r.hum ∧ r.hum ≤ 65535 ∧ -32767 ≤ r.tmp ∧ r.tmp ≤ 32767 := by
  unfold rht03 at h
  rw [if_neg hatt] at h
  cases hmap : w.mapOk with
  | false =>
    unfold attempt at h
    simp only [hmap, if_true] at h
    cases h
    simp at hok
  | true =>
    rw [attempt_eq fuel w port s hum tmp hmap] at h
    cases hh : handshake fuel w port with
    | none => simp [hh] at h
    | some sh =>
      rw [hh] at h
      cases sh with
      | ret m =>
        cases h
        simp at hok
      | ready n m =>
        simp only [] at h
        cases hs : sample fuel w port (n * 50 / 80) 40 0 m with
        | none => simp [hs] at h
        | some p =>
          obtain ⟨f, cs⟩ := p
          rw [hs] at h
          cases f with
          | ret m5 =>
            cases h
            simp at hok
          | go m5 =>
            simp only [Option.some.injEq] at h
            subst h
            have b0 := sample_lt fuel w port _ 40 0 m m5 cs hs 0 (Or.inr ⟨by omega, by omega⟩)
            have b1 := sample_lt fuel w port _ 40 0 m m5 cs hs 1 (Or.inr ⟨by omega, by omega⟩)
            have b3 := sample_lt fuel w port _ 40 0 m m5 cs hs 3 (Or.inr ⟨by omega, by omega⟩)
            have b2 : m5.data.getD 2 0 &&& 0x7f ≤ 0x7f := Nat.and_le_right
            rcases validate_cases m5.data { s with last := w.now } hum tmp
              (m5.tr ++ [Event.munmap]) with ⟨v1, _⟩ | ⟨_, _, _, v4, v5⟩
            · rw [v1] at hok
              simp at hok
            · rw [v4]
              rcases v5 with v5 | v5 <;> rw [v5] <;> omega

/-! ## Threshold and packing -/

/-- A flat loop that runs to its end keeps the length of the buffer and has counted
one width per iteration. -/
theorem sample_length (fuel : Nat) (w : World) (port : Int) (th : Nat) (n : Nat) :
    ∀ (j : Nat) (m m1 : Mach) (cs : List Nat),
      sample fuel w port th n j m = some (Flow.go m1, cs) →
        m1.data.length = m.data.length ∧ cs.length = n := by
  induction n with
  | zero =>
    intro j m m1 cs h
    simp only [sample, Option.some.injEq, Prod.mk.injEq, Flow.go.injEq] at h
    obtain ⟨rfl, rfl⟩ := h
    exact ⟨rfl, rfl⟩
  | succ n ih =>
    intro j m m1 cs h
    simp only [sample] at h
    cases hw : whileLow w port fuel m with
    | none => simp [hw] at h
    | some m2 =>
      rw [hw] at h
      simp only [] at h
      cases hf : forWait w port true fuel 0 m2 with
      | none => simp [hf] at h
      | some r =>
        rw [hf] at h
        have hd := waits_data fuel w port m m2 r hw hf
        cases r with
        | timeout m3 =>
          simp only [abort, Option.some.injEq, Prod.mk.injEq] at h
          exact absurd h.1 (by simp)
        | done i m3 =>
          simp only [] at h
          cases hs : sample fuel w port th n (j + 1) (storeBit th (j / 8) i m3) with
          | none => simp [hs] at h
          | some q =>
            obtain ⟨f1, cs1⟩ := q
            rw [hs] at h
            simp only [Option.some.injEq, Prod.mk.injEq] at h
            obtain ⟨rfl, rfl⟩ := h
            obtain ⟨a1, a2⟩ := ih (j + 1) _ m1 cs1 hs
            simp only [Wait.mach] at hd
            rw [a1, (storeBit_getD th (j / 8) i m3 0).1, hd]
            exact ⟨rfl, by simp [a2]⟩

/-- From the state in which bit `j` is reached, one regular iteration leads to the
state in which bit `j + 1` is reached. -/
theorem sample_step (fuel : Nat) (w : World) (port : Int) (th j : Nat) (m4 mj m1 m2 : Mach)
    (cs : List Nat) (c : Nat)
    (hs : sample fuel w port th j 0 m4 = some (Flow.go mj, cs))
    (hw : whileLow w port fuel mj = some m1)
    (hf : forWait w port true fuel 0 m1 = some (Wait.done c m2)) :
    sample fuel w port th (j + 1) 0 m4
      = some (Flow.go (storeBit th (j / 8) c m2), cs ++ [c]) := by
  rw [sample_add, hs]
  simp only [Nat.zero_add]
  rw [sample_succ fuel w port th 0 j mj m1 m2 c hw hf]
  simp [sample]

/-- C11: in a read attempt whose calibration wait counted W, when the bit number j
(bit j % 8 of byte j / 8) is reached and its high pulse is counted as c without
timeout, the sampling goes on with `data[j / 8]` shifted left and its low bit set to
1 if c > W*50/80 and to 0 if c <= W*50/80; so c = W*50/80 gives 0 and
c = W*50/80 + 1 gives 1. -/
theorem threshold_discrimination (fuel : Nat) (w : World) (port : Int) (W j : Nat)
    (m4 mj m1 m2 : Mach) (cs : List Nat) (c : Nat)
    (hg : w.garbage.length = 5)
    (hh : handshake fuel w port = some (Shake.ready W m4)) (hj : j < 40)
    (hs : sample fuel w port (W * 50 / 80) j 0 m4 = some (Flow.go mj, cs))
    (hw : whileLow w port fuel mj = some m1)
    (hf : forWait w port true fuel 0 m1 = some (Wait.done c m2)) :
    sample fuel w port (W * 50 / 80) (j + 1) 0 m4
        = some (Flow.go (storeBit (W * 50 / 80) (j / 8) c m2), cs ++ [c]) ∧
    (storeBit (W * 50 / 80) (j / 8) c m2).data.getD (j / 8) 0
        = (2 * mj.data.getD (j / 8) 0 + (if c > W * 50 / 80 then 1 else 0)) % 256 ∧
    (c > W * 50 / 80 →
      (storeBit (W * 50 / 80) (j / 8) c m2).data.getD (j / 8) 0 % 2 = 1) ∧
    (c ≤ W * 50 / 80 →
      (storeBit (W * 50 / 80) (j / 8) c m2).data.getD (j / 8) 0 % 2 = 0) ∧
    (c = W * 50 / 80 →
      (storeBit (W * 50 / 80) (j / 8) c m2).data.getD (j / 8) 0 % 2 = 0) ∧
    (c = W * 50 / 80 + 1 →
      (storeBit (W * 50 / 80) (j / 8) c m2).data.getD (j / 8) 0 % 2 = 1) := by
  have hd4 : m4.data = w.garbage := ((handshake_trace fuel w port _ hh).1 W m4 rfl).2.2.2
  have hlj := (sample_length fuel w port _ j 0 m4 mj cs hs).1
  have hd2 : m2.data = mj.data := waits_data fuel w port mj m1 _ hw hf
  have hlen : j / 8 < m2.data.length := by
    rw [hd2, hlj, hd4, hg]
    omega
  have hv : (storeBit (W * 50 / 80) (j / 8) c m2).data.getD (j / 8) 0
      = (2 * mj.data.getD (j / 8) 0 + (if c > W * 50 / 80 then 1 else 0)) % 256 := by
    rw [(storeBit_getD (W * 50 / 80) (j / 8) c m2 (j / 8)).2, if_pos ⟨rfl, hlen⟩, hd2]
  refine ⟨sample_step fuel w port _ j m4 mj m1 m2 cs c hs hw hf, hv, ?_, ?_, ?_, ?_⟩
  · intro hc
    rw [hv, if_pos hc]
    omega
  · intro hc
    rw [hv, if_neg (by omega)]
    omega
  · intro hc
    rw [hv, if_neg (by omega)]
    omega
  · intro hc
    rw [hv, if_pos (by omega)]
    omega

/-- Two buffers of the same length with the same entries are equal. -/
theorem eq_of_getD (a b : List Nat) (hl : a.length = b.length)
    (h : ∀ d, d < a.length → a.getD d 0 = b.getD d 0) : a = b := by
  apply List.ext_getElem hl
  intro n h1 h2
  have := h n h1
  rw [List.getD_eq_getElem _ _ h1, List.getD_eq_getElem _ _ h2] at this
  exact this

/-- C15: when the sampling loop of an attempt on a 5-byte buffer runs to its end, 40
widths cs were counted, and with bit(j) = 1 if cs[j] exceeds the threshold and 0
otherwise, byte d of the frame is the sum over k = 0..7 of bit(8d+k) * 2^(7-k); the
same attempt started with any other content of the buffer delivers the same frame. -/
theorem frame_packing (fuel : Nat) (w : World) (port : Int) (n : Nat) (m4 m5 : Mach)
    (cs : List Nat) (hg : w.garbage.length = 5)
    (hh : handshake fuel w port = some (Shake.ready n m4))
    (hs : sample fuel w port (n * 50 / 80) 40 0 m4 = some (Flow.go m5, cs)) :
    acquire fuel w port = some (Flow.go (emit Event.munmap m5)) ∧
    cs.length = 40 ∧ m5.data.length = 5 ∧
    (∀ d, d < 5 → m5.data.getD d 0 = packed (n * 50 / 80) cs d) ∧
    ∀ g : List Nat, g.length = 5 →
      ∃ m6, acquire fuel { w with garbage := g } port = some (Flow.go m6) ∧
        m6.data = m5.data := by
  have hd4 : m4.data = w.garbage := ((handshake_trace fuel w port _ hh).1 n m4 rfl).2.2.2
  obtain ⟨c1, c2, c3⟩ := sample_frame fuel w port _ m4 m5 cs (by rw [hd4, hg]) hs
  refine ⟨?_, c1, c2, c3, ?_⟩
  · rw [acquire_eq_sample, hh]
    simp only [hs]
  · intro g hgl
    have hsim := handshake_sim w { w with garbage := g } rfl fuel port
    rw [hh] at hsim
    cases hh2 : handshake fuel { w with garbage := g } port with
    | none => simp [hh2] at hsim
    | some sh =>
      cases sh with
      | ret b => simp [hh2] at hsim
      | ready n2 b =>
        simp only [hh2] at hsim
        obtain ⟨rfl, hk, ht⟩ := hsim
        have hdb : b.data = g :=
          ((handshake_trace fuel { w with garbage := g } port _ hh2).1 n b rfl).2.2.2
        have ssim := sample_sim w { w with garbage := g } rfl fuel port (n * 50 / 80) 40 0
          m4 b hk ht
        rw [hs] at ssim
        cases hs2 : sample fuel { w with garbage := g } port (n * 50 / 80) 40 0 b with
        | none => simp [hs2] at ssim
        | some q =>
          obtain ⟨f2, cs2⟩ := q
          cases f2 with
          | ret b1 => simp [hs2] at ssim
          | go b1 =>
            simp only [hs2] at ssim
            obtain ⟨rfl, _, _⟩ := ssim
            obtain ⟨e1, e2, e3⟩ := sample_frame fuel { w with garbage := g } port _ b b1 cs
              (by rw [hdb, hgl]) hs2
            refine ⟨emit Event.munmap b1, ?_, ?_⟩
            · rw [acquire_eq_sample, hh2]
              simp only [hs2]
            · apply eq_of_getD
              · simp only [emit]
                rw [e2, c2]
              · intro d hd
                simp only [emit] at hd ⊢
                rw [e2] at hd
                rw [e3 d hd, c3 d hd]

/-! ## Stuck lines and termination -/

/-- A hardware attempt whose handshake returns has returned -1 with the trace of the
handshake, the outputs and the stored reading untouched. -/
theorem fail_of_handshake (fuel : Nat) (w : World) (port : Int) (s : Statics) (hum tmp : Int)
    (m : Mach) (hint : ¬ interval w.now s.last < 2000000) (hmap : w.mapOk = true)
    (hh : handshake fuel w port = some (Shake.ret m)) :
    rht03 fuel w port s hum tmp =
      some { ret := -1, hum := hum, tmp := tmp, st := { s with last := w.now }, tr := m.tr } := by
  unfold rht03
  rw [if_neg hint, attempt_eq fuel w port s hum tmp hmap, hh]

/-- A hardware attempt whose sampling loop returns has returned -1 with the trace of
the loop, the outputs and the stored reading untouched. -/
theorem fail_of_sample (fuel : Nat) (w : World) (port : Int) (s : Statics) (hum tmp : Int)
    (n : Nat) (m4 m5 : Mach) (cs : List Nat)
    (hint : ¬ interval w.now s.last < 2000000) (hmap : w.mapOk = true)
    (hh : handshake fuel w port = some (Shake.ready n m4))
    (hs : sample fuel w port (n * 50 / 80) 40 0 m4 = some (Flow.ret m5, cs)) :
    rht03 fuel w port s hum tmp =
      some { ret := -1, hum := hum, tmp := tmp, st := { s with last := w.now },
             tr := m5.tr } := by
  unfold rht03
  rw [if_neg hint, attempt_eq fuel w port s hum tmp hmap, hh]
  simp only [hs]

/-- The trace of the error exit behind a wait that timed out. -/
theorem timeout_trace (fuel : Nat) (w : World) (port : Int) (lvl : Bool) (msg : Msg)
    (m m1 : Mach) (hm : m.tr = traceAt w port m.k ∧ 1 ≤ m.k)
    (hf : forWait w port lvl fuel 0 m = some (Wait.timeout m1)) :
    (abort msg m1).mach.tr = traceAt w port m1.k ++ [Event.fprintf msg, Event.munmap] := by
  have h := forWait_induct w port lvl (fun x => x.tr = traceAt w port x.k ∧ 1 ≤ x.k)
    (fun x hx => prt_rd_onTrace w port x hx) fuel 0 m _ hm hf
  simp only [Wait.mach] at h
  simp only [abort, Flow.mach, emit, List.append_assoc, List.singleton_append]
  rw [h.1]

/-- When the line stays low at the rising-edge wait of a bit that the attempt reaches,
no amount of fuel makes the call return. -/
theorem hang_of_low (fuel : Nat) (w : World) (port : Int) (s : Statics) (hum tmp : Int)
    (n j : Nat) (m4 mj : Mach) (cs : List Nat)
    (hint : ¬ interval w.now s.last < 2000000) (hmap : w.mapOk = true)
    (hh : handshake fuel w port = some (Shake.ready n m4)) (hj : j < 40)
    (hs : sample fuel w port (n * 50 / 80) j 0 m4 = some (Flow.go mj, cs))
    (hl : ∀ t, mj.k ≤ t → w.line t = false) (fuel2 : Nat) :
    rht03 fuel2 w port s hum tmp = none := by
  have hh2 := handshake_mono fuel fuel2 w port _ hh
  have hs2 := sample_mono fuel fuel2 w port _ j 0 m4 _ hs
  have hnone : rht03 (fuel + fuel2) w port s hum tmp = none := by
    unfold rht03
    rw [if_neg hint, attempt_eq _ w port s hum tmp hmap, hh2]
    simp only []
    obtain ⟨q, hq⟩ : ∃ q, 40 = j + (q + 1) := ⟨40 - j - 1, by omega⟩
    rw [hq, sample_add, hs2]
    simp only [Nat.zero_add, sample, whileLow_stuck w port (fuel + fuel2) mj hl]
  cases hr : rht03 fuel2 w port s hum tmp with
  | none => rfl
  | some r =>
    have := rht03_mono fuel2 fuel w port s hum tmp r hr
    rw [Nat.add_comm, hnone] at this
    cases this

/-- The phases of C12 one by one: in a hardware attempt with fuel for TIMEOUT + 2
iterations of each loop, a line that never leaves its level makes the call return -1, with the outputs
and the stored reading untouched, after the diagnostic of the phase: bus busy (low at
the idle check), response timeout (high from the idle check on), base time too long
(low from the end of the response wait on), signal not detected (high from the end of
the calibration wait on), bit timeout for bit j (high from the rising edge of that bit
on). When the line stays low at the rising-edge wait of a bit, the call does not
return, whatever the fuel. -/
theorem stuck_line_outcomes (fuel : Nat) (w : World) (port : Int) (s : Statics)
    (hum tmp : Int) (hint : ¬ interval w.now s.last < 2000000) (hmap : w.mapOk = true)
    (hfuel : TIMEOUT + 2 ≤ fuel) :
    (w.line 0 = false →
      rht03 fuel w port s hum tmp =
        some { ret := -1, hum := hum, tmp := tmp, st := { s with last := w.now },
               tr := busyTrace port }) ∧
    ((∀ t, w.line t = true) →
      ∃ k, rht03 fuel w port s hum tmp =
        some { ret := -1, hum := hum, tmp := tmp, st := { s with last := w.now },
               tr := traceAt w port k
                 ++ [Event.fprintf Msg.responseTimeout, Event.munmap] }) ∧
    (∀ i m2, w.line 0 = true →
      forWait w port true fuel 0 (startMach w port) = some (Wait.done i m2) →
      (∀ t, m2.k ≤ t → w.line t = false) →
      ∃ k, rht03 fuel w port s hum tmp =
        some { ret := -1, hum := hum, tmp := tmp, st := { s with last := w.now },
               tr := traceAt w port k
                 ++ [Event.fprintf Msg.baseTimeTooLong, Event.munmap] }) ∧
    (∀ i m2 n m3, w.line 0 = true →
      forWait w port true fuel 0 (startMach w port) = some (Wait.done i m2) →
      forWait w port false fuel 0 m2 = some (Wait.done n m3) →
      (∀ t, m3.k ≤ t → w.line t = true) →
      ∃ k, rht03 fuel w port s hum tmp =
        some { ret := -1, hum := hum, tmp := tmp, st := { s with last := w.now },
               tr := traceAt w port k
                 ++ [Event.fprintf Msg.signalNotDetect, Event.munmap] }) ∧
    (∀ n m4 j mj cs m1, handshake fuel w port = some (Shake.ready n m4) → j < 40 →
      sample fuel w port (n * 50 / 80) j 0 m4 = some (Flow.go mj, cs) →
      whileLow w port fuel mj = some m1 →
      (∀ t, m1.k ≤ t → w.line t = true) →
      ∃ k, rht03 fuel w port s hum tmp =
        some { ret := -1, hum := hum, tmp := tmp, st := { s with last := w.now },
               tr := traceAt w port k
                 ++ [Event.fprintf (Msg.bitTimeout (j / 8) (j % 8)), Event.munmap] }) ∧
    (∀ n m4 j mj cs, handshake fuel w port = some (Shake.ready n m4) → j < 40 →
      sample fuel w port (n * 50 / 80) j 0 m4 = some (Flow.go mj, cs) →
      (∀ t, mj.k ≤ t → w.line t = false) →
      ∀ fuel2, rht03 fuel2 w port s hum tmp = none) := by
  have h0 := startMach_onTrace w port
  have hP : ∀ x : Mach, (x.tr = traceAt w port x.k ∧ 1 ≤ x.k) →
      ((prt_rd w port x).2.tr = traceAt w port (prt_rd w port x).2.k
        ∧ 1 ≤ (prt_rd w port x).2.k) := fun x hx => prt_rd_onTrace w port x hx
  have hidle : w.line 0 = true →
      ¬ (prt_rd w port (emit (Event.fnc_wr port Fnc.FNC_IN)
        { k := 0, tr := [Event.regs_map], data := w.garbage })).1 = false := by
    intro hl
    simp [prt_rd, emit, hl]
  refine ⟨?_, ?_, ?_, ?_, ?_, ?_⟩
  · intro hl
    apply fail_of_handshake fuel w port s hum tmp
      { k := 1, tr := busyTrace port, data := w.garbage } hint hmap
    unfold handshake
    simp [prt_rd, emit, hl, abort, Flow.mach, busyTrace]
  · intro hl
    obtain ⟨m1, hf, _⟩ := forWait_stuck w port true fuel (startMach w port) hfuel
      (fun t _ => hl t)
    refine ⟨m1.k, ?_⟩
    rw [← timeout_trace fuel w port true Msg.responseTimeout _ m1 ⟨h0.1, h0.2.1⟩ hf]
    apply fail_of_handshake fuel w port s hum tmp _ hint hmap
    unfold handshake
    simp only [if_neg (hidle (hl 0)), hf]
  · intro i m2 hl0 h1 hl
    have t1 := forWait_induct w port true _ hP fuel 0 _ _ ⟨h0.1, h0.2.1⟩ h1
    obtain ⟨m3, hf, _⟩ := forWait_stuck w port false fuel m2 hfuel hl
    refine ⟨m3.k, ?_⟩
    rw [← timeout_trace fuel w port false Msg.baseTimeTooLong _ m3 t1 hf]
    apply fail_of_handshake fuel w port s hum tmp _ hint hmap
    unfold handshake
    simp only [if_neg (hidle hl0), h1, hf]
  · intro i m2 n m3 hl0 h1 h2 hl
    have t1 := forWait_induct w port true _ hP fuel 0 _ _ ⟨h0.1, h0.2.1⟩ h1
    have t2 := forWait_induct w port false _ hP fuel 0 _ _ t1 h2
    obtain ⟨m4, hf, _⟩ := forWait_stuck w port true fuel m3 hfuel hl
    refine ⟨m4.k, ?_⟩
    rw [← timeout_trace fuel w port true Msg.signalNotDetect _ m4 t2 hf]
    apply fail_of_handshake fuel w port s hum tmp _ hint hmap
    unfold handshake
    simp only [if_neg (hidle hl0), h1, h2, hf]
  · intro n m4 j mj cs m1 hh hj hs hw hl
    obtain ⟨_, a1, a2, _⟩ := (handshake_trace fuel w port _ hh).1 n m4 rfl
    obtain ⟨b1, b2⟩ := (sample_trace fuel w port _ j 0 m4 _ cs ⟨a1, a2⟩ hs).1 mj rfl
    have t1 := whileLow_induct w port _ hP fuel mj m1 ⟨b1, by omega⟩ hw
    obtain ⟨m2, hf, _⟩ := forWait_stuck w port true fuel m1 hfuel hl
    refine ⟨m2.k, ?_⟩
    rw [← timeout_trace fuel w port true (Msg.bitTimeout (j / 8) (j % 8)) _ m2 t1 hf]
    apply fail_of_sample fuel w port s hum tmp n m4 _ (cs ++ []) hint hmap hh
    obtain ⟨q, hq⟩ : ∃ q, 40 = j + (q + 1) := ⟨40 - j - 1, by omega⟩
    rw [hq, sample_add, hs]
    simp only [Nat.zero_add, sample, hw, hf]
    rfl
  · intro n m4 j mj cs hh hj hs hl fuel2
    exact hang_of_low fuel w port s hum tmp n j m4 mj cs hint hmap hh hj hs hl fuel2

/-- C18: when the line goes high within finitely many reads after every point at
which the attempt reaches the rising-edge wait of one of the 40 bits, the call returns
for some amount of fuel (and then for every larger one). Every bounded wait, started
with its counter at 0 as all of them are, ends after at most TIMEOUT + 2 = 1002 reads,
and does end when it has fuel for that many iterations. -/
theorem terminates (w : World) (port : Int) (s : Statics) (hum tmp : Int)
    (hr : ∀ fuel n m4 j mj cs, handshake fuel w port = some (Shake.ready n m4) → j < 40 →
      sample fuel w port (n * 50 / 80) j 0 m4 = some (Flow.go mj, cs) →
      ∃ t, w.line (mj.k + t) = true) :
    (∃ fuel r, rht03 fuel w port s hum tmp = some r ∧
      ∀ e, rht03 (fuel + e) w port s hum tmp = some r) ∧
    TIMEOUT + 2 = 1002 ∧
    (∀ fuel lvl m r, forWait w port lvl fuel 0 m = some r → r.mach.k ≤ m.k + 1002) ∧
    (∀ fuel lvl m, 1002 ≤ fuel → ∃ r, forWait w port lvl fuel 0 m = some r) := by
  refine ⟨?_, rfl, ?_, ?_⟩
  · suffices hex : ∃ fuel r, rht03 fuel w port s hum tmp = some r by
      obtain ⟨fuel, r, h⟩ := hex
      exact ⟨fuel, r, h, fun e => rht03_mono fuel e w port s hum tmp r h⟩
    by_cases hint : interval w.now s.last < 2000000
    · exact ⟨0, _, by unfold rht03; rw [if_pos hint]⟩
    · cases hmap : w.mapOk with
      | false =>
        refine ⟨0, ?_⟩
        unfold rht03
        rw [if_neg hint]
        unfold attempt
        simp only [hmap, if_true]
        exact ⟨_, rfl⟩
      | true =>
        obtain ⟨sh, hh⟩ := handshake_total (TIMEOUT + 2) w port (le_refl _)
        cases sh with
        | ret m => exact ⟨_, _, fail_of_handshake _ w port s hum tmp m hint hmap hh⟩
        | ready n m4 =>
          have key : ∀ j, j ≤ 40 → ∃ e p,
              sample (TIMEOUT + 2 + e) w port (n * 50 / 80) j 0 m4 = some p := by
            intro j
            induction j with
            | zero =>
              intro _
              exact ⟨0, _, rfl⟩
            | succ j ih =>
              intro hj
              obtain ⟨e, p, hp⟩ := ih (by omega)
              obtain ⟨f, cs⟩ := p
              cases f with
              | ret x =>
                refine ⟨e, (Flow.ret x, cs), ?_⟩
                rw [sample_add, hp]
              | go mj =>
                obtain ⟨t, ht⟩ := hr _ n m4 j mj cs
                  (handshake_mono _ e w port _ hh) (by omega) hp
                have hp2 := sample_mono _ (t + 1) w port _ j 0 m4 _ hp
                obtain ⟨m1, hw⟩ := whileLow_high w port t (TIMEOUT + 2 + e + (t + 1)) mj ht
                  (by omega)
                obtain ⟨r, hf⟩ := forWait_total w port true (TIMEOUT + 2 + e + (t + 1)) 0 m1
                  (by omega) (by omega)
                refine ⟨e + (t + 1), ?_⟩
                rw [← Nat.add_assoc, sample_add, hp2]
                simp only [Nat.zero_add, sample, hw, hf]
                cases r with
                | timeout m2 => exact ⟨_, rfl⟩
                | done c m2 => exact ⟨_, rfl⟩
          obtain ⟨e, p, hp⟩ := key 40 (le_refl _)
          refine ⟨TIMEOUT + 2 + e, ?_⟩
          unfold rht03
          rw [if_neg hint, attempt_eq _ w port s hum tmp hmap,
            handshake_mono _ e w port _ hh]
          simp only [hp]
          obtain ⟨f, cs⟩ := p
          cases f with
          | ret x => exact ⟨_, rfl⟩
          | go x => exact ⟨_, rfl⟩
  · intro fuel lvl m r h
    have := (forWait_reads w port lvl fuel 0 m r (by omega) h).2.1
    simp only [TIMEOUT] at this
    omega
  · intro fuel lvl m hf
    exact forWait_total w port lvl fuel 0 m (by omega) (by simp only [TIMEOUT]; omega)

/-- Every count a bounded wait hands on is at most TIMEOUT + 1. -/
theorem count_le (w : World) (port : Int) (lvl : Bool) (fuel : Nat) (m m1 : Mach) (j : Nat)
    (h : forWait w port lvl fuel 0 m = some (Wait.done j m1)) : j ≤ TIMEOUT + 1 := by
  obtain ⟨_, h2, h3, _⟩ := forWait_reads w port lvl fuel 0 m _ (by omega) h
  obtain ⟨h4, _⟩ := h3 j m1 rfl
  simp only [Wait.mach] at h2
  omega

/-! ## Evaluations -/

/-- The handshake against the sensor whose first pulse lasts 5 reads. -/
theorem handshake_pulseWorld5 : handshake 16 (pulseWorld 5) 24
    = some (Shake.ready 8 (machAt (pulseWorld 5) 24 13 (pulseWorld 5).garbage)) := by
  decide

/-- The handshake against the sensor whose first pulse lasts 6 reads. -/
theorem handshake_pulseWorld6 : handshake 16 (pulseWorld 6) 24
    = some (Shake.ready 8 (machAt (pulseWorld 6) 24 13 (pulseWorld 6).garbage)) := by
  decide

/-- The handshake against the sensor that then keeps the line low. -/
theorem handshake_hungWorld : handshake 1002 hungWorld 24
    = some (Shake.ready 8 (machAt hungWorld 24 13 hungWorld.garbage)) := by
  decide

/-- The handshake against the sensor that sends `goodFrame`. -/
theorem handshake_goodWorld : handshake 16 goodWorld 24
    = some (Shake.ready 8 (machAt goodWorld 24 13 goodWorld.garbage)) := by
  decide

/-- The sampling loop against the sensor that sends `goodFrame`. -/
theorem sample_goodWorld : sample 16 goodWorld 24 (8 * 50 / 80) 40 0
      (machAt goodWorld 24 13 goodWorld.garbage)
    = some (Flow.go (machAt goodWorld 24 303 goodFrame), goodCounts) := by
  decide

/-- Behind the handshake the line of `hungWorld` is low at every read. -/
theorem hungWorld_low (t : Nat) (ht : 13 ≤ t) : hungWorld.line t = false :=
  List.getD_eq_default _ _ (by simpa [handshakeReads] using ht)

/-- From read 303 on the line of `pullupWorld` is high. -/
theorem pullupWorld_high (k : Nat) : pullupWorld.line (k + 303) = true := by
  have hl : (frameReads goodFrame).length = 303 := by decide
  show (frameReads goodFrame).getD (k + 303) true = true
  exact List.getD_eq_default _ _ (by omega)

/-- Instance of C11 at both sides of the threshold 8 * 50 / 80 = 5: a first pulse
counted as 5 stores a 0, a first pulse counted as 6 stores a 1. -/
theorem threshold_discrimination_witness :
    (storeBit (8 * 50 / 80) (0 / 8) 5
        (machAt (pulseWorld 5) 24 22 (pulseWorld 5).garbage)).data.getD (0 / 8) 0 % 2 = 0 ∧
    (storeBit (8 * 50 / 80) (0 / 8) 6
        (machAt (pulseWorld 6) 24 23 (pulseWorld 6).garbage)).data.getD (0 / 8) 0 % 2 = 1 :=
  ⟨(threshold_discrimination 16 (pulseWorld 5) 24 8 0
      (machAt (pulseWorld 5) 24 13 (pulseWorld 5).garbage)
      (machAt (pulseWorld 5) 24 13 (pulseWorld 5).garbage)
      (machAt (pulseWorld 5) 24 16 (pulseWorld 5).garbage)
      (machAt (pulseWorld 5) 24 22 (pulseWorld 5).garbage) [] 5
      rfl handshake_pulseWorld5 (by decide) rfl (by decide) (by decide)).2.2.2.2.1 rfl,
   (threshold_discrimination 16 (pulseWorld 6) 24 8 0
      (machAt (pulseWorld 6) 24 13 (pulseWorld 6).garbage)
      (machAt (pulseWorld 6) 24 13 (pulseWorld 6).garbage)
      (machAt (pulseWorld 6) 24 16 (pulseWorld 6).garbage)
      (machAt (pulseWorld 6) 24 23 (pulseWorld 6).garbage) [] 6
      rfl handshake_pulseWorld6 (by decide) rfl (by decide) (by decide)).2.2.2.2.2 rfl⟩

/-- C12, evaluated where it fails: against a sensor that answers the handshake and then
keeps the line low, the attempt reaches the rising-edge wait of bit 0 of byte 0 after
13 reads, the line stays low from there on, and the call returns with no amount of
fuel: it does not return failure, it does not return. -/
theorem stuck_low_bit_never_returns :
    handshake 1002 hungWorld 24
        = some (Shake.ready 8 (machAt hungWorld 24 13 hungWorld.garbage)) ∧
    (∀ t, 13 ≤ t → hungWorld.line t = false) ∧
    ¬ ∃ fuel r, rht03 fuel hungWorld 24 Statics.zero 7 9 = some r := by
  refine ⟨handshake_hungWorld, hungWorld_low, ?_⟩
  rintro ⟨fuel, r, h⟩
  have := hang_of_low 1002 hungWorld 24 Statics.zero 7 9 8 0
    (machAt hungWorld 24 13 hungWorld.garbage) (machAt hungWorld 24 13 hungWorld.garbage) []
    (by decide) rfl handshake_hungWorld (by decide) rfl hungWorld_low fuel
  rw [this] at h
  cases h

/-- Instances of the phases: a line that is always high gives the response timeout; a
line that stays low after the handshake makes the call hang. -/
theorem stuck_line_outcomes_witness :
    (∃ k, rht03 1002 highWorld 24 Statics.zero 7 9 =
      some { ret := -1, hum := 7, tmp := 9,
             st := { Statics.zero with last := highWorld.now },
             tr := traceAt highWorld 24 k
               ++ [Event.fprintf Msg.responseTimeout, Event.munmap] }) ∧
    ∀ fuel2, rht03 fuel2 hungWorld 24 Statics.zero 7 9 = none :=
  ⟨(stuck_line_outcomes 1002 highWorld 24 Statics.zero 7 9 (by decide) rfl
      (by decide)).2.1 (fun _ => rfl),
   (stuck_line_outcomes 1002 hungWorld 24 Statics.zero 7 9 (by decide) rfl
      (by decide)).2.2.2.2.2 8 (machAt hungWorld 24 13 hungWorld.garbage) 0
      (machAt hungWorld 24 13 hungWorld.garbage) [] handshake_hungWorld (by decide) rfl
      hungWorld_low⟩

/-- Instance of C13: the call at 13 s against a busy bus. -/
theorem bus_busy_returns_witness :
    ∃ r, rht03 16 (busyWorld { tv_sec := 13, tv_nsec := 0 }) 24 Statics.zero 7 9 = some r ∧
      r.ret = -1 ∧ r.hum = 7 ∧ r.tmp = 9 ∧
      r.tr = [Event.regs_map, Event.fnc_wr 24 Fnc.FNC_IN, Event.prt_rd 24 false,
        Event.fprintf Msg.busBusy, Event.munmap] ∧
      (∀ p, Event.fnc_wr p Fnc.FNC_OUT ∉ r.tr) ∧ (∀ p v, Event.prt_wr p v ∉ r.tr) ∧
      r.tr.getLast? = some Event.munmap :=
  bus_busy_returns 16 (busyWorld { tv_sec := 13, tv_nsec := 0 }) 24 Statics.zero 7 9
    (by decide) rfl rfl

/-- C14, evaluated where it fails: the calibration wait sees the line low at 1001
reads and high at the next one; it ends regularly with the count 1001, which exceeds
TIMEOUT = 1000, and the attempt goes on to sample the frame 00 00 00 00 00 and
returns 0. -/
theorem calibration_count_exceeds_ceiling :
    (handshake 1002 slowWorld 24).map Shake.count = some (some 1001) ∧ TIMEOUT < 1001 ∧
    (rht03 1002 slowWorld 24 Statics.zero 7 9).map (fun r => (r.ret, r.hum, r.tmp, r.st))
      = some (0, 0, 0, { last := { tv_sec := 10, tv_nsec := 999 }, h := 0, t := 0 }) := by
  decide

/-- Instance of C15: the run against the sensor that sends 02 8C 01 04 93. -/
theorem frame_packing_witness :
    acquire 16 goodWorld 24
        = some (Flow.go (emit Event.munmap (machAt goodWorld 24 303 goodFrame))) ∧
    goodCounts.length = 40 ∧ (machAt goodWorld 24 303 goodFrame).data.length = 5 ∧
    (∀ d, d < 5 →
      (machAt goodWorld 24 303 goodFrame).data.getD d 0 = packed (8 * 50 / 80) goodCounts d) ∧
    ∀ g : List Nat, g.length = 5 →
      ∃ m6, acquire 16 { goodWorld with garbage := g } 24 = some (Flow.go m6) ∧
        m6.data = (machAt goodWorld 24 303 goodFrame).data :=
  frame_packing 16 goodWorld 24 8 (machAt goodWorld 24 13 goodWorld.garbage)
    (machAt goodWorld 24 303 goodFrame) goodCounts rfl handshake_goodWorld sample_goodWorld

/-- Instance of C16: the successful run against `goodWorld` records one `munmap`. -/
theorem munmap_once_witness :
    ((interval goodWorld.now Statics.zero.last < 2000000 ∨ goodWorld.mapOk = false) →
        goodResult.tr.count Event.munmap = 0) ∧
    (¬ interval goodWorld.now Statics.zero.last < 2000000 → goodWorld.mapOk = true →
        goodResult.tr.count Event.munmap = 1 ∧
        ∃ pre post, goodResult.tr = Event.regs_map :: pre ++ Event.munmap :: post ∧
          Event.munmap ∉ pre ∧
          (post = [] ∨ post = [Event.fprintf Msg.checksumUnmuch])) :=
  munmap_once 16 goodWorld 24 Statics.zero 7 9 goodResult run_goodWorld

/-- Instance of C17: the successful run against `goodWorld`. -/
theorem line_discipline_witness :
    (goodResult.tr.filter Event.drives = [] ∨
      goodResult.tr.filter Event.drives = [Event.fnc_wr 24 Fnc.FNC_IN] ∨
      goodResult.tr.filter Event.drives =
        [Event.fnc_wr 24 Fnc.FNC_IN, Event.fnc_wr 24 Fnc.FNC_OUT, Event.prt_wr 24 0,
         Event.fnc_wr 24 Fnc.FNC_IN]) ∧
    (∃ dir n, driveCheck none 0 goodResult.tr = some (dir, n) ∧ n ≤ 1 ∧
      (goodResult.tr.filter Event.drives ≠ [] → dir = some Fnc.FNC_IN)) ∧
    ∀ k, driveCheck none 0 (traceAt goodWorld 24 k) = some (some Fnc.FNC_IN, 1) :=
  line_discipline 16 goodWorld 24 Statics.zero 7 9 goodResult run_goodWorld

/-- Instance of C18: on the line of `pullupWorld` every read from number 303 on is
high, so every rising-edge wait ends and the call returns. -/
theorem terminates_witness :
    (∃ fuel r, rht03 fuel pullupWorld 24 Statics.zero 7 9 = some r ∧
      ∀ e, rht03 (fuel + e) pullupWorld 24 Statics.zero 7 9 = some r) ∧
    TIMEOUT + 2 = 1002 ∧
    (∀ fuel lvl m r, forWait pullupWorld 24 lvl fuel 0 m = some r → r.mach.k ≤ m.k + 1002) ∧
    (∀ fuel lvl m, 1002 ≤ fuel → ∃ r, forWait pullupWorld 24 lvl fuel 0 m = some r) :=
  terminates pullupWorld 24 Statics.zero 7 9
    (fun _ _ _ _ mj _ _ _ _ => ⟨303, pullupWorld_high mj.k⟩)

/-- Instance of C19: a read of port 24 at 10.000000999 s, then a call for port 17 at
11 s against a sensor that would send another frame. -/
theorem cache_not_keyed_witness :
    rht03 16 (worldOf { tv_sec := 11, tv_nsec := 0 } (frameReads coldFrame)) 17
        goodResult.st 0 0 =
      some { ret := 0, hum := goodResult.hum, tmp := goodResult.tmp, st := goodResult.st,
             tr := [] } ∧
    (∀ (f3 : Nat) (w3 : World) (portC : Int) (hum3 tmp3 : Int),
      w3.now = (worldOf { tv_sec := 11, tv_nsec := 0 } (frameReads coldFrame)).now →
      rht03 f3 w3 portC goodResult.st hum3 tmp3 =
        rht03 16 (worldOf { tv_sec := 11, tv_nsec := 0 } (frameReads coldFrame)) 17
          goodResult.st 0 0) ∧
    ∀ (s0 : Statics) (fa : Nat) (wa : World) (pa : Int) (ha ta : Int) (fb : Nat)
      (wb : World) (pb : Int) (hb tb : Int),
      interval wa.now s0.last < 2000000 → wb.now = wa.now →
        rht03 fa wa pa s0 ha ta
          = some { ret := 0, hum := s0.h, tmp := s0.t, st := s0, tr := [] } ∧
        rht03 fb wb pb s0 hb tb = rht03 fa wa pa s0 ha ta :=
  cache_not_keyed 16 goodWorld 24 Statics.zero 7 9 goodResult 16
    (worldOf { tv_sec := 11, tv_nsec := 0 } (frameReads coldFrame)) 17 0 0
    run_goodWorld (by decide) rfl (by decide)

/-- Instance of C20: the reading 652 / 260 of the run against `goodWorld`. -/
theorem reading_ranges_witness :
    0 ≤ goodResult.hum ∧ goodResult.hum ≤ 65535 ∧ -32767 ≤ goodResult.tmp
      ∧ goodResult.tmp ≤ 32767 :=
  reading_ranges 16 goodWorld 24 Statics.zero 7 9 goodResult run_goodWorld (by decide) rfl

end RHT03
